import Mathlib

/-!
Verification development for the glassesSpeechToText repository.

The client (`pico_i2s_oled.py`, both the `New_Realtime` and `updated`
variants) and the server (`server_speech_recognition.py` variants) are
modelled by a shallow embedding: byte strings are `List Nat` (values
0..255), Python slices with negative indices are modelled by `pyIdx`,
`bytes.find` by `findSub`, `int()` by `pyInt`, and the stateful parsing
loops by explicit state-passing functions.

Modelling conventions, stated once:
* `decode('utf-8', 'ignore')` on header / line bytes is modelled at the
  byte level (identity).  All header syntax the code compares against
  (`+IPD`, `,`, `:`, digits, signs) is ASCII, and ASCII bytes decode to
  themselves one-to-one; exotic non-ASCII digit forms accepted by
  Python's `int()` are outside the model.
* `str.strip()` / `bytes.strip()` strip the six ASCII whitespace
  characters (`pyStrip`); for `bytes.strip()` this is exact.
* Timeouts of polling loops are modelled by exhaustion of the explicit
  script of reads handed to the function.
-/

set_option maxHeartbeats 1000000

namespace GlassesSTT

/-! ### Byte-string primitives (Python `bytes` operations) -/

/-- Test `byteStarts p l` : does `l` start with `p` (Python `startswith`). -/
def byteStarts : List Nat → List Nat → Bool
  | [], _ => true
  | _ :: _, [] => false
  | a :: as, b :: bs => if a = b then byteStarts as bs else false

/-- Index of the first occurrence of `pat` in `l` (Python `bytes.find`,
returning `none` instead of `-1`). -/
def findSub (pat : List Nat) : List Nat → Option Nat
  | [] => if byteStarts pat [] then some 0 else none
  | b :: rest =>
    if byteStarts pat (b :: rest) then some 0
    else (findSub pat rest).map (· + 1)

/-- Python `pat in l` for byte strings. -/
def hasSub (pat l : List Nat) : Bool := (findSub pat l).isSome

/-- Normalize a (possibly negative) Python slice bound for length `n`. -/
def pyIdx (n : Nat) (i : Int) : Nat :=
  if i < 0 then n - min n (-i).toNat else min i.toNat n

/-- Python `l[a:b]`. -/
def pySlice (l : List Nat) (a b : Int) : List Nat :=
  (l.take (pyIdx l.length b)).drop (pyIdx l.length a)

/-- Python `l[a:]`. -/
def pyDrop (l : List Nat) (a : Int) : List Nat :=
  l.drop (pyIdx l.length a)

/-- The six ASCII whitespace bytes stripped by Python. -/
def isPyWs (c : Nat) : Bool :=
  c == 32 || c == 9 || c == 10 || c == 13 || c == 11 || c == 12

/-- Python `strip()` (ASCII whitespace, both ends). -/
def pyStrip (s : List Nat) : List Nat :=
  ((s.dropWhile isPyWs).reverse.dropWhile isPyWs).reverse

/-! ### Python `int()` on a decoded field -/

/-- Digits with single interior underscores, accumulating a value
(the tail of Python's integer-literal grammar). -/
def digitsCore : Nat → List Nat → Option Nat
  | acc, [] => some acc
  | acc, c :: cs =>
    if 48 ≤ c ∧ c ≤ 57 then digitsCore (acc * 10 + (c - 48)) cs
    else if c = 95 then
      match cs with
      | [] => none
      | d :: _ => if 48 ≤ d ∧ d ≤ 57 then digitsCore acc cs else none
    else none

/-- A nonempty digit group (first character must be a digit). -/
def parseDigits : List Nat → Option Nat
  | [] => none
  | c :: cs => if 48 ≤ c ∧ c ≤ 57 then digitsCore (c - 48) cs else none

/-- Python `int(s)`: optional surrounding whitespace, optional single
sign, digits with single interior underscores; `none` models
`ValueError`. -/
def pyInt (s : List Nat) : Option Int :=
  match pyStrip s with
  | [] => none
  | c :: rest =>
    if c = 43 then (parseDigits rest).map (fun n => (n : Int))
    else if c = 45 then (parseDigits rest).map (fun n => -(n : Int))
    else (parseDigits (c :: rest)).map (fun n => (n : Int))

/-! ### The `+IPD` header -/

def ipdPat : List Nat := [43, 73, 80, 68]

def ipdComma : List Nat := [43, 73, 80, 68, 44]

/-- Model of `hdr.replace("+IPD,", "")`: remove every occurrence, left to right.
A match of the five-byte pattern skips it (the inner `match` is the
four remaining bytes, which a match guarantees are present). -/
def removeIpdComma : List Nat → List Nat
  | [] => []
  | b :: rest =>
    if byteStarts ipdComma (b :: rest) then
      match rest with
      | _ :: _ :: _ :: _ :: rest4 => removeIpdComma rest4
      | _ => []
    else b :: removeIpdComma rest

/-- Model of `split(",")` on the decoded header. -/
def splitComma : List Nat → List (List Nat)
  | [] => [[]]
  | b :: rest =>
    if b = 44 then [] :: splitComma rest
    else
      match splitComma rest with
      | [] => [[b]]
      | g :: gs => (b :: g) :: gs

/-- The header interpretation of `TranscriptParser.parse` /
`SpeechClient.check_transcript`: take the bytes before the colon,
remove `+IPD,`, split on commas; `none` models both the
`len(parts) < 2` branch and an `int()` `ValueError` (the code reacts
to the two identically, by discarding 4 bytes). -/
def headerParse (hdr : List Nat) : Option (Int × Int) :=
  let parts := splitComma (removeIpdComma hdr)
  if parts.length < 2 then none
  else
    match pyInt (parts.getD 0 []), pyInt (parts.getD 1 []) with
    | some l, some n => some (l, n)
    | _, _ => none

/-! ### One iteration of the `+IPD` extraction loop

`TranscriptParser.parse` (New_Realtime client, lines 345-389) and
`SpeechClient.check_transcript` (updated client, lines 450-501) run the
same loop: find `+IPD`, drop noise before it, find the colon, interpret
the header, and either wait for more bytes (`stop`) or consume
something and loop (`cont`). -/

inductive StepRes
  | stop (raw msg : List Nat)
  | cont (raw msg : List Nat)
deriving DecidableEq, Repr

/-- The loop body after the buffer has been trimmed to start at the
`+IPD` marker. -/
def ipdBody (link : Nat) (raw msg : List Nat) : StepRes :=
  match findSub [58] raw with
  | none => .stop raw msg
  | some colon =>
    match headerParse (raw.take colon) with
    | none => .cont (raw.drop 4) msg
    | some (l, dlen) =>
      if (raw.length : Int) < (colon : Int) + 1 + dlen then .stop raw msg
      else
        .cont (pyDrop raw ((colon : Int) + 1 + dlen))
          (if l = (link : Int) then
             msg ++ pySlice raw ((colon : Int) + 1) ((colon : Int) + 1 + dlen)
           else msg)

/-- One iteration of the extraction loop, including the search for the
frame-start marker and the noise trim. -/
def ipdStep (link : Nat) (raw msg : List Nat) : StepRes :=
  match findSub ipdPat raw with
  | none => .stop raw msg
  | some idx => ipdBody link (raw.drop idx) msg

/-- The extraction loop, fuelled.  `none` models the loop failing to
reach its exit (the Python loop spinning forever, which a negative
declared length can cause). -/
def extractN (link : Nat) : Nat → List Nat → List Nat → Option (List Nat × List Nat)
  | 0, _, _ => none
  | fuel + 1, raw, msg =>
    match ipdStep link raw msg with
    | .stop r m => some (r, m)
    | .cont r m => extractN link fuel r m

/-- The extraction loop with saturated fuel: one iteration either
strictly shrinks the buffer or repeats the same state forever, so
`raw.length + 1` iterations decide the loop. -/
def extract (link : Nat) (raw msg : List Nat) : Option (List Nat × List Nat) :=
  extractN link (raw.length + 1) raw msg

/-! ### The newline-delimited transcript phase (New_Realtime client)

`TranscriptParser.parse`, lines 391-414: split `msg_buf` on `\n`,
classify each complete line by its first byte. -/

/-- Split off the complete newline-terminated lines, returning them with
the unterminated remainder (the loop on `self.msg_buf.find(b'\n')`). -/
def splitNl : List Nat → List (List Nat) × List Nat
  | [] => ([], [])
  | b :: rest =>
    let p := splitNl rest
    if b = 10 then ([] :: p.1, p.2)
    else
      match p.1 with
      | [] => ([], b :: p.2)
      | l :: ls => ((b :: l) :: ls, p.2)

/-- A parsed transcript frame: tag byte `0x01` = interim, `0x02` = final. -/
inductive TFrame
  | interim (text : List Nat)
  | final (text : List Nat)
deriving DecidableEq, Repr

/-- Classify one complete line the way `TranscriptParser.parse` does:
lines shorter than 2 bytes, lines whose stripped text is empty, and
lines with an unknown tag byte are consumed silently. -/
def lineFrame (line : List Nat) : Option TFrame :=
  if line.length < 2 then none
  else
    match line with
    | [] => none
    | t :: rest =>
      let text := pyStrip rest
      if text = [] then none
      else if t = 2 then some (.final text)
      else if t = 1 then some (.interim text)
      else none

/-- The state of a `TranscriptParser`: the raw reassembly buffer and the
decoded-payload buffer awaiting a newline. -/
structure PState where
  raw : List Nat
  msg : List Nat
deriving DecidableEq, Repr

/-- Model of `TranscriptParser.parse`: run the `+IPD` extraction loop, then split
the message buffer into complete lines; the parsed transcript frames of
the call are the classified lines.  `none` models a call that never
returns. -/
def parseP (link : Nat) (s : PState) : Option (PState × List TFrame) :=
  match extract link s.raw s.msg with
  | none => none
  | some (r, m) =>
    some (⟨r, (splitNl m).2⟩, ((splitNl m).1).filterMap lineFrame)

/-- Model of `TranscriptParser.feed`. -/
def feedP (s : PState) (d : List Nat) : PState := ⟨s.raw ++ d, s.msg⟩

/-- Feed the remaining bytes one at a time, calling `parse` after each
byte, accumulating the frames of every call. -/
def runInc (link : Nat) : PState → List TFrame → List Nat → Option (PState × List TFrame)
  | s, acc, [] => some (s, acc)
  | s, acc, b :: bs =>
    match parseP link (feedP s [b]) with
    | none => none
    | some (s', fs) => runInc link s' (acc ++ fs) bs

/-- Feed a whole byte sequence to a fresh parser one byte at a time with
a `parse` call after every byte. -/
def runIncremental (link : Nat) (bytes : List Nat) : Option (PState × List TFrame) :=
  runInc link ⟨[], []⟩ [] bytes

/-- Feed a whole byte sequence to a fresh parser in one `feed` and one
`parse` call. -/
def runBatch (link : Nat) (bytes : List Nat) : Option (PState × List TFrame) :=
  parseP link ⟨bytes, []⟩

/-! ### `check_transcript`'s newline phase (updated client, lines 503-521)

The updated client splits its transcript buffer on newlines, silently
consumes empty / whitespace-only / `KEEPALIVE` lines, and returns the
last other line. -/

def keepaliveBytes : List Nat := [75, 69, 69, 80, 65, 76, 73, 86, 69]

/-- The fold over complete lines: `latest_text` is replaced by each
line that survives the filters. -/
def ctGo : Option (List Nat) → List (List Nat) → Option (List Nat)
  | latest, [] => latest
  | latest, ln :: rest =>
    let d := pyStrip ln
    if d = [] ∨ d = keepaliveBytes then ctGo latest rest
    else ctGo (some d) rest

/-- The newline phase of `SpeechClient.check_transcript`: returns the
new `transcript_buffer` and the transcript string (or `None`). -/
def checkTranscriptLines (tbuf : List Nat) : Option (List Nat) × List Nat :=
  let p := splitNl tbuf
  (ctGo none p.1, p.2)

/-! ### `TranscriptParser.parse`'s display-state fold (lines 391-419)

The per-line state updates of `accumulated_text` / `current_interim` /
`updated`, and the display text the call returns. -/

/-- Fold the complete lines over `(accumulated_text, current_interim,
updated)` exactly as the loop body does (`" "` = byte 32, `"..."` =
three bytes 46). -/
def tpGo : List Nat → List Nat → Bool → List (List Nat) → List Nat × List Nat × Bool
  | acc, intr, upd, [] => (acc, intr, upd)
  | acc, intr, upd, ln :: rest =>
    if ln.length < 2 then tpGo acc intr upd rest
    else
      match ln with
      | [] => tpGo acc intr upd rest
      | t :: tl =>
        let text := pyStrip tl
        if text = [] then tpGo acc intr upd rest
        else if t = 2 then tpGo (acc ++ text ++ [32]) [] true rest
        else if t = 1 then tpGo acc (text ++ [46, 46, 46]) true rest
        else tpGo acc intr upd rest

/-- The value `TranscriptParser.parse` returns, as a function of the
pre-existing display state and the message buffer: the stripped
concatenation of accumulated and interim text if any line updated the
state, else `None`. -/
def tpParseResult (acc intr msg : List Nat) : Option (List Nat) :=
  let p := splitNl msg
  let r := tpGo acc intr false p.1
  if r.2.2 then some (pyStrip (r.1 ++ r.2.1)) else none

/-! ### The send-path waits (updated client, lines 215-294)

`_wait_for_prompt` and `_wait_send_ok` poll the UART, accumulating the
chunks each read returns, until a token arrives or the deadline passes.
The script of reads is explicit; exhausting it models the timeout. -/

def crlfBytes : List Nat := [13, 10]
def errorBytes : List Nat := [69, 82, 82, 79, 82]
def linkInvalidBytes : List Nat :=
  [108, 105, 110, 107, 32, 105, 115, 32, 110, 111, 116, 32, 118, 97, 108, 105, 100]
def sendOkBytes : List Nat := [83, 69, 78, 68, 32, 79, 75]
def sendFailBytes : List Nat := [83, 69, 78, 68, 32, 70, 65, 73, 76]
def atBytes : List Nat := [65, 84]
def okBytes : List Nat := [79, 75]

/-- Model of `data.replace(pat, b"")` for a nonempty `pat`: remove every
occurrence, left to right. -/
def removeSubN (pat : List Nat) : Nat → List Nat → List Nat
  | 0, l => l
  | _ + 1, [] => []
  | fuel + 1, b :: rest =>
    if pat.isEmpty then b :: rest
    else if byteStarts pat (b :: rest) then
      removeSubN pat fuel (rest.drop (pat.length - 1))
    else b :: removeSubN pat fuel rest

def removeSub (pat l : List Nat) : List Nat := removeSubN pat l.length l

/-- The line filter of `strip_at_echo`: drop CRLF-terminated lines that
are an `AT` echo, a bare `OK`, empty, or a bare `>`. -/
def stripEchoLinesN : Nat → List Nat → List Nat
  | 0, d => d
  | fuel + 1, d =>
    match findSub crlfBytes d with
    | none => d
    | some e =>
      let line := d.take e
      if byteStarts atBytes line ∨ line = okBytes ∨ line = [] ∨ line = [62] then
        stripEchoLinesN fuel (d.drop (e + 2))
      else d.take (e + 2) ++ stripEchoLinesN fuel (d.drop (e + 2))

def stripEchoLines (d : List Nat) : List Nat := stripEchoLinesN d.length d

/-- Model of `strip_at_echo` (updated client, lines 165-189). -/
def strip_at_echo (d : List Nat) : List Nat :=
  if ¬ hasSub ipdPat d ∧ ¬ hasSub crlfBytes d then d else stripEchoLines d

/-- Model of `_wait_for_prompt` (updated client, lines 215-230): accumulate read
chunks; a `>` returns the accumulated bytes minus every `>` byte, run
through `strip_at_echo`; `ERROR` / `link is not valid` and the timeout
return `b""`. -/
def waitForPrompt : List Nat → List (List Nat) → Bool × List Nat
  | _, [] => (false, [])
  | acc, ch :: rest =>
    if ch = [] then waitForPrompt acc rest
    else
      let acc2 := acc ++ ch
      if hasSub [62] acc2 then
        (true, strip_at_echo (acc2.filter (· ≠ 62)))
      else if hasSub errorBytes acc2 ∨ hasSub linkInvalidBytes acc2 then (false, [])
      else waitForPrompt acc2 rest

/-- The marker scan of `_wait_send_ok`: the three markers are tried in
tuple order, not in order of arrival. -/
def findMarker (acc : List Nat) : Option (List Nat) :=
  if hasSub sendOkBytes acc then some sendOkBytes
  else if hasSub sendFailBytes acc then some sendFailBytes
  else if hasSub linkInvalidBytes acc then some linkInvalidBytes
  else none

/-- Model of `_wait_send_ok` (updated client, lines 233-249): the accumulator
starts from `pre_buffer`; when a marker appears the accumulated bytes
minus every occurrence of the marker are returned through
`strip_at_echo`; the timeout returns `b""`. -/
def waitSendOk : List Nat → List (List Nat) → Bool × List Nat
  | _, [] => (false, [])
  | acc, ch :: rest =>
    if ch = [] then waitSendOk acc rest
    else
      let acc2 := acc ++ ch
      match findMarker acc2 with
      | some mk => (mk = sendOkBytes, strip_at_echo (removeSub mk acc2))
      | none => waitSendOk acc2 rest

/-- The UART reads `esp_send_data` observes while sending one 2048-byte
chunk: the reads during the prompt wait, the bytes collected while
bursting the chunk out (`rx_during_tx`), and the reads during the
SEND-OK wait. -/
structure ChunkReads where
  promptChunks : List (List Nat)
  burstRx : List Nat
  sokChunks : List (List Nat)

/-- Model of `esp_send_data` (updated client, lines 259-294), with the UART
reads of each chunk iteration given by `io`; an exhausted `io` behaves
as waits that time out. -/
def esp_send_data_go : List Nat → List ChunkReads → List Nat → Bool × List Nat
  | [], _, leftover => (true, leftover)
  | _ :: _, [], leftover => (false, leftover)
  | d :: data, io :: ios, leftover =>
    let p := waitForPrompt [] io.promptChunks
    let leftover1 := leftover ++ p.2
    if ¬ p.1 then (false, leftover1)
    else
      let w := waitSendOk io.burstRx io.sokChunks
      let leftover2 := leftover1 ++ w.2
      if ¬ w.1 then (false, leftover2)
      else esp_send_data_go ((d :: data).drop 2048) ios leftover2

def esp_send_data (data : List Nat) (io : List ChunkReads) : Bool × List Nat :=
  esp_send_data_go data io []

/-! ### The send-path waits (New_Realtime client, lines 177-267)

The New_Realtime client has its own `_wait_for_prompt`, `_wait_send_ok`
and `esp_send_data_fast`.  Its `_wait_for_prompt` returns a bare
boolean: the bytes it accumulated while blocked are not returned on any
path, the success path included.  Its `_wait_send_ok` returns, on
success, only the bytes after the first `SEND OK` occurrence, dropping
everything accumulated up to and including the token. -/

/-- Model of `_wait_for_prompt` (New_Realtime client, lines 177-197):
accumulate read chunks until a `>` arrives and return `True`; `ERROR` /
`link is not valid` and the timeout return `False`.  The accumulated
bytes are dropped on every path. -/
def waitPromptNR : List Nat → List (List Nat) → Bool
  | _, [] => false
  | acc, ch :: rest =>
    if ch = [] then waitPromptNR acc rest
    else
      let acc2 := acc ++ ch
      if hasSub [62] acc2 then true
      else if hasSub errorBytes acc2 ∨ hasSub linkInvalidBytes acc2 then false
      else waitPromptNR acc2 rest

/-- Model of `_wait_send_ok` (New_Realtime client, lines 200-223): when
`SEND OK` appears, `accumulated[idx + 7:]` — only the bytes after its
first occurrence — is returned as the leftover; `SEND FAIL` /
`link is not valid` and the timeout return `b""`. -/
def waitSendOkNR : List Nat → List (List Nat) → Bool × List Nat
  | _, [] => (false, [])
  | acc, ch :: rest =>
    if ch = [] then waitSendOkNR acc rest
    else
      let acc2 := acc ++ ch
      match findSub sendOkBytes acc2 with
      | some idx => (true, acc2.drop (idx + 7))
      | none =>
        if hasSub sendFailBytes acc2 ∨ hasSub linkInvalidBytes acc2 then (false, [])
        else waitSendOkNR acc2 rest

/-- Model of `esp_send_data_fast` (New_Realtime client, lines 231-267),
with the UART reads of each 2048-byte chunk iteration given by `io`:
per chunk it waits for the prompt (discarding those reads), bursts the
chunk while collecting `rx_during` (`burstRx`), waits for `SEND OK`,
and appends `rx_during + leftover` to `all_leftover`; a failed prompt
wait returns the leftover gathered so far. -/
def esp_send_data_fast_go : List Nat → List ChunkReads → List Nat → Bool × List Nat
  | [], _, leftover => (true, leftover)
  | _ :: _, [], leftover => (false, leftover)
  | d :: data, io :: ios, leftover =>
    if ¬ waitPromptNR [] io.promptChunks then (false, leftover)
    else
      let w := waitSendOkNR [] io.sokChunks
      let leftover2 := leftover ++ io.burstRx ++ w.2
      if ¬ w.1 then (false, leftover2)
      else esp_send_data_fast_go ((d :: data).drop 2048) ios leftover2

def esp_send_data_fast (data : List Nat) (io : List ChunkReads) : Bool × List Nat :=
  esp_send_data_fast_go data io []

/-! ### `recv_exact` (updated server, lines 208-218; New_Realtime
server, lines 219-227)

The socket is modelled by the byte stream the peer will deliver plus a
schedule saying, per `recv` call, whether the call times out (`none`)
or how many bytes the kernel has ready (`some k`); `recv(m)` returns at
most `min m k` bytes.  An exhausted schedule delivers `b''`
(peer-closed). -/

/-- Model of `recv_exact(sock, n)` of the updated server: returns `b''` on
timeout or on a closed peer, else loops until `n` bytes arrived. -/
def recv_exact_go : List Nat → Nat → List Nat → List (Option Nat) → List Nat
  | buf, n, _, [] => if n ≤ buf.length then buf else []
  | buf, n, data, ev :: rest =>
    if n ≤ buf.length then buf
    else
      match ev with
      | none => []
      | some k =>
        let m := min (n - buf.length) (min k data.length)
        if m = 0 then []
        else recv_exact_go (buf ++ data.take m) n (data.drop m) rest

def recv_exact (n : Nat) (data : List Nat) (sched : List (Option Nat)) : List Nat :=
  recv_exact_go [] n data sched

/-- Result of `StreamingSession._recv_exact` of the New_Realtime
server, which has no timeout handler: a timeout escapes as an
exception, EOF returns `None`. -/
inductive Recv2Res
  | timedOut
  | eofNone
  | ok (data : List Nat)
deriving DecidableEq, Repr

/-- Model of `StreamingSession._recv_exact(n)`. -/
def recv_exact2_go : List Nat → Nat → List Nat → List (Option Nat) → Recv2Res
  | buf, n, _, [] => if n ≤ buf.length then .ok buf else .eofNone
  | buf, n, data, ev :: rest =>
    if n ≤ buf.length then .ok buf
    else
      match ev with
      | none => .timedOut
      | some k =>
        let m := min (n - buf.length) (min k data.length)
        if m = 0 then .eofNone
        else recv_exact2_go (buf ++ data.take m) n (data.drop m) rest

def recv_exact2 (n : Nat) (data : List Nat) (sched : List (Option Nat)) : Recv2Res :=
  recv_exact2_go [] n data sched

/-! ### The binary audio frame (New_Realtime, client lines 504-515 and
server lines 164-194) -/

/-- Model of `bytes([MSG_AUDIO]) + struct.pack('<H', len) + pcm`. -/
def u16le (n : Nat) : List Nat := [n % 256, n / 256 % 256]

def encodeAudioChunk (p : List Nat) : List Nat := 1 :: (u16le p.length ++ p)

inductive WireFrame
  | audio (pcm : List Nat)
  | stop
  | unknown (tag : Nat)
deriving DecidableEq, Repr

/-- One iteration of `StreamingSession.run`'s receive loop on an
in-order byte stream: read the tag byte; for `MSG_AUDIO` read the
2-byte little-endian length and then that many PCM bytes (each via
`_recv_exact`, so `none` when the stream ends short). -/
def decodeFrame : List Nat → Option (WireFrame × List Nat)
  | [] => none
  | t :: rest =>
    if t = 1 then
      if 2 ≤ rest.length then
        let len := rest.getD 0 0 + 256 * rest.getD 1 0
        let body := rest.drop 2
        if len ≤ body.length then some (.audio (body.take len), body.drop len)
        else none
      else none
    else if t = 2 then some (.stop, rest)
    else some (.unknown t, rest)

/-! ### The handshake check (New_Realtime server, lines 302-312) -/

def startBytes : List Nat := [83, 84, 65, 82, 84]

/-- Model of `start_server`'s acceptance test on the first `recv(16)` bytes:
rejected iff the chunk is empty or its stripped bytes do not start with
`b"START"`. -/
def handshakeAccepted (hs : List Nat) : Bool :=
  ¬ hs.isEmpty && byteStarts startBytes (pyStrip hs)

/-! ### The transcript delivery loop (updated server, lines 333-359)

Each iteration observes `session_active`, exits if it is clear, then
possibly sends a dequeued transcript and possibly a keepalive; a failed
send exits the loop.  The oracle input fixes what each iteration
observes. -/

structure TIter where
  flagSet : Bool
  gotItem : Bool
  sendOk : Bool
  kaDue : Bool
  kaOk : Bool

inductive TAct
  | checkSet
  | checkClear
  | sendTranscript
  | sendKeepalive
deriving DecidableEq, Repr

/-- The keepalive tail of one iteration followed by the rest of the
loop. -/
def tLoopKa (i : TIter) (k : List TAct) : List TAct :=
  if i.kaDue then .sendKeepalive :: (if i.kaOk then k else []) else k

/-- The action trace of `transcript_server`'s inner loop on a given
schedule of observations. -/
def tLoop : List TIter → List TAct
  | [] => []
  | i :: rest =>
    if ¬ i.flagSet then [.checkClear]
    else
      .checkSet ::
        (if i.gotItem then
          .sendTranscript :: (if i.sendOk then tLoopKa i (tLoop rest) else [])
         else tLoopKa i (tLoop rest))

/-- No action of any kind follows an observation of the cleared flag. -/
def noActAfterClear : List TAct → Bool
  | [] => true
  | .checkClear :: rest => rest.isEmpty
  | _ :: rest => noActAfterClear rest

/-- Every send is covered by a set-flag observation with no cleared
observation since; the Boolean argument is whether such an observation
is in force. -/
def writesGuarded : Bool → List TAct → Bool
  | _, [] => true
  | _, .checkSet :: rest => writesGuarded true rest
  | _, .checkClear :: rest => writesGuarded false rest
  | seen, .sendTranscript :: rest => seen && writesGuarded seen rest
  | seen, .sendKeepalive :: rest => seen && writesGuarded seen rest

/-! ### The session engine (updated server, lines 95-199)

Discrete-event model of `PicoHandler` / `RecognitionSession` with time
in milliseconds.  A `genPoll t` event is one pass of
`_audio_generator`'s loop at time `t`: it consumes a queued chunk if
one is there; on an empty queue it returns — ending the worker thread —
when the idle threshold (5000 ms) has passed since the last audio, and
it also ends when `is_running` was cleared by `stop()`.  The
idle-timeout return leaves `is_running` untouched, exactly as the code
does. -/

structure RSess where
  isRunning : Bool
  lastAudio : Nat
  workerEnded : Bool
  queued : Nat
deriving DecidableEq, Repr

structure PHState where
  cur : Option RSess
  lastStop : Nat
  workerStarts : Nat
deriving DecidableEq, Repr

inductive PEvent
  | audio (t : Nat)
  | stopEvt (t : Nat)
  | genPoll (t : Nat)

def audioTimeoutMs : Nat := 5000
def stopGraceMs : Nat := 500

/-- Model of `PicoHandler.handle_audio` (lines 176-187). -/
def handleAudio (t : Nat) (st : PHState) : PHState :=
  if t < st.lastStop + stopGraceMs then st
  else
    let st2 :=
      match st.cur with
      | none =>
        { st with cur := some ⟨true, t, false, 0⟩, workerStarts := st.workerStarts + 1 }
      | some s =>
        if ¬ s.isRunning then
          { st with cur := some ⟨true, t, false, 0⟩, workerStarts := st.workerStarts + 1 }
        else st
    match st2.cur with
    | none => st2
    | some s =>
      if s.isRunning then
        { st2 with cur := some { s with lastAudio := t, queued := s.queued + 1 } }
      else st2

/-- Model of `PicoHandler.handle_stop` (lines 189-194). -/
def handleStop (t : Nat) (st : PHState) : PHState :=
  { st with lastStop := t, cur := none }

/-- One pass of `RecognitionSession._audio_generator`'s loop at time
`t` (lines 120-131). -/
def genPollStep (t : Nat) (st : PHState) : PHState :=
  match st.cur with
  | none => st
  | some s =>
    if s.workerEnded then st
    else if ¬ s.isRunning then { st with cur := some { s with workerEnded := true } }
    else if 0 < s.queued then { st with cur := some { s with queued := s.queued - 1 } }
    else if audioTimeoutMs < t - s.lastAudio then
      { st with cur := some { s with workerEnded := true } }
    else st

def phStep (st : PHState) : PEvent → PHState
  | .audio t => handleAudio t st
  | .stopEvt t => handleStop t st
  | .genPoll t => genPollStep t st

def phRun (evs : List PEvent) : PHState :=
  evs.foldl phStep ⟨none, 0, 0⟩

/-! ## Lemmas about the byte-string primitives -/

theorem byteStarts_length {p l : List Nat} (h : byteStarts p l = true) :
    p.length ≤ l.length := by
  induction p generalizing l with
  | nil => simp
  | cons a as ih =>
    cases l with
    | nil => simp [byteStarts] at h
    | cons b bs =>
      simp only [byteStarts] at h
      split at h
      · simpa using ih h
      · simp at h

theorem byteStarts_append {p l : List Nat} (t : List Nat)
    (h : byteStarts p l = true) : byteStarts p (l ++ t) = true := by
  induction p generalizing l with
  | nil => simp [byteStarts]
  | cons a as ih =>
    cases l with
    | nil => simp [byteStarts] at h
    | cons b bs =>
      simp only [byteStarts, List.cons_append] at h ⊢
      split at h
      · simpa [*] using ih h
      · simp at h

theorem byteStarts_of_append {p l t : List Nat}
    (h : byteStarts p (l ++ t) = true) (hlen : p.length ≤ l.length) :
    byteStarts p l = true := by
  induction p generalizing l with
  | nil => simp [byteStarts]
  | cons a as ih =>
    cases l with
    | nil => simp at hlen
    | cons b bs =>
      simp only [List.cons_append, byteStarts] at h ⊢
      split at h
      · simp only [List.length_cons] at hlen
        simpa [*] using ih h (by omega)
      · simp at h

theorem byteStarts_self_append (p t : List Nat) :
    byteStarts p (p ++ t) = true := by
  induction p with
  | nil => simp [byteStarts]
  | cons a as ih => simpa [byteStarts] using ih

theorem byteStarts_nil {pat : List Nat} (h : byteStarts pat [] = true) :
    pat = [] := by
  cases pat with
  | nil => rfl
  | cons a as => simp [byteStarts] at h

theorem findSub_bound {pat l : List Nat} {i : Nat}
    (h : findSub pat l = some i) : i + pat.length ≤ l.length := by
  induction l generalizing i with
  | nil =>
    simp only [findSub] at h
    split at h
    · cases h
      have hp := byteStarts_nil (by assumption)
      subst hp
      simp
    · cases h
  | cons b bs ih =>
    simp only [findSub] at h
    split at h
    · cases h
      have := byteStarts_length (by assumption)
      omega
    · cases hf : findSub pat bs with
      | none => simp [hf] at h
      | some j =>
        simp only [hf, Option.map_some'] at h
        cases h
        have := ih hf
        simp only [List.length_cons]
        omega

theorem findSub_starts {pat l : List Nat} {i : Nat}
    (h : findSub pat l = some i) : byteStarts pat (l.drop i) = true := by
  induction l generalizing i with
  | nil =>
    simp only [findSub] at h
    split at h
    · cases h; simpa
    · cases h
  | cons b bs ih =>
    simp only [findSub] at h
    split at h
    · cases h; simpa
    · cases hf : findSub pat bs with
      | none => simp [hf] at h
      | some j =>
        simp only [hf, Option.map_some'] at h
        cases h
        simpa using ih hf

theorem findSub_zero_of_byteStarts {pat l : List Nat}
    (h : byteStarts pat l = true) : findSub pat l = some 0 := by
  cases l with
  | nil =>
    simp only [findSub]
    split
    · rfl
    · simp_all
  | cons b bs => simp [findSub, h]

/-- The first occurrence found inside `l` is still the first occurrence
after appending more bytes: an earlier occurrence in `l ++ t` would
have to fit before `i`, hence (because a full occurrence exists at `i`)
entirely inside `l`. -/
theorem findSub_append {pat l : List Nat} {i : Nat} (t : List Nat)
    (h : findSub pat l = some i) : findSub pat (l ++ t) = some i := by
  induction l generalizing i with
  | nil =>
    simp only [findSub] at h
    by_cases hb : byteStarts pat [] = true
    · rw [if_pos hb] at h
      cases h
      have hp := byteStarts_nil hb
      subst hp
      cases t with
      | nil => simp [findSub, byteStarts]
      | cons c cs => simp [findSub, byteStarts]
    · rw [if_neg hb] at h
      cases h
  | cons b bs ih =>
    simp only [findSub] at h
    by_cases hb : byteStarts pat (b :: bs) = true
    · rw [if_pos hb] at h
      cases h
      have hb2 := byteStarts_append t hb
      simp only [List.cons_append] at hb2 ⊢
      simp [findSub, hb2]
    · rw [if_neg hb] at h
      cases hf : findSub pat bs with
      | none => simp [hf] at h
      | some j =>
        simp only [hf, Option.map_some'] at h
        cases h
        have hlen : pat.length ≤ (b :: bs).length := by
          have := findSub_bound hf
          simp only [List.length_cons]
          omega
        have hnp : byteStarts pat (b :: (bs ++ t)) = true → False := by
          intro hc
          exact hb (byteStarts_of_append (l := b :: bs)
            (by simpa using hc) hlen)
        simp only [List.cons_append, findSub]
        rw [if_neg (by simpa using hnp)]
        simp only [List.append_eq]
        rw [ih hf]
        rfl

theorem findSub_single_mem {c : Nat} {l : List Nat} (h : c ∈ l) :
    (findSub [c] l).isSome := by
  induction l with
  | nil => simp at h
  | cons b bs ih =>
    simp only [findSub]
    by_cases hb : byteStarts [c] (b :: bs) = true
    · simp [hb]
    · have hcb : ¬ b = c := by
        intro hh
        subst hh
        simp [byteStarts] at hb
      rcases List.mem_cons.1 h with h1 | h1
      · exact absurd h1.symm hcb
      · have := ih h1
        cases hf : findSub [c] bs with
        | none => simp [hf] at this
        | some j => simp [hb, hf]

theorem findSub_single_none {c : Nat} {l : List Nat}
    (h : findSub [c] l = none) : c ∉ l := by
  intro hm
  have := findSub_single_mem hm
  simp [h] at this

/-- A single byte at position `|a|` with none of it earlier. -/
theorem findSub_single_append {c : Nat} {a : List Nat} (b : List Nat)
    (h : findSub [c] a = none) : findSub [c] (a ++ c :: b) = some a.length := by
  induction a with
  | nil => simp [findSub, byteStarts]
  | cons x xs ih =>
    simp only [findSub] at h
    split at h
    · cases h
    · simp only [List.cons_append, findSub, List.length_cons]
      rw [if_neg (by assumption)]
      cases hf : findSub [c] xs with
      | none => simp [ih hf]
      | some j => simp [hf] at h

/-- An occurrence of `pat` placed explicitly in the middle guarantees
`hasSub`. -/
theorem hasSub_of_middle (pat a b : List Nat) :
    hasSub pat (a ++ pat ++ b) = true := by
  induction a with
  | nil =>
    simp only [List.nil_append, hasSub]
    rw [findSub_zero_of_byteStarts (byteStarts_self_append pat b)]
    rfl
  | cons x xs ih =>
    simp only [hasSub, List.cons_append, List.append_assoc, findSub] at ih ⊢
    split
    · rfl
    · cases hf : findSub pat (xs ++ (pat ++ b)) with
      | none => simp [hf] at ih
      | some j => simp [hf]

theorem hasSub_mono {pat a : List Nat} (t : List Nat)
    (h : hasSub pat a = true) : hasSub pat (a ++ t) = true := by
  simp only [hasSub] at h ⊢
  cases hf : findSub pat a with
  | none => simp [hf] at h
  | some i => rw [findSub_append t hf]; rfl

/-- A prefix with room to spare of a string with an occurrence-free
prefix is itself occurrence-free. -/
theorem hasSub_of_prefix {pat a b : List Nat}
    (hab : ∃ r, a ++ r = b) (h : hasSub pat a = true) : hasSub pat b = true := by
  obtain ⟨r, rfl⟩ := hab
  exact hasSub_mono r h

/-! ## Membership lemmas: everything the header interpretation looks at
comes from the buffer -/

theorem mem_pyStrip {x : Nat} {s : List Nat} (h : x ∈ pyStrip s) : x ∈ s := by
  unfold pyStrip at h
  rw [List.mem_reverse] at h
  have h1 := (List.dropWhile_sublist (l := (s.dropWhile isPyWs).reverse) isPyWs).mem h
  rw [List.mem_reverse] at h1
  exact (List.dropWhile_sublist (l := s) isPyWs).mem h1

theorem byteStarts_cons_iff {p x : Nat} {ps xs : List Nat} :
    byteStarts (p :: ps) (x :: xs) = true ↔ p = x ∧ byteStarts ps xs = true := by
  simp only [byteStarts]
  split <;> simp_all

theorem byteStarts_ipdComma_shape : ∀ {l : List Nat},
    byteStarts ipdComma l = true →
    ∃ rest4, l = 43 :: 73 :: 80 :: 68 :: 44 :: rest4 := by
  intro l hp
  cases l with
  | nil => simp [ipdComma, byteStarts] at hp
  | cons x0 l0 =>
    rw [show ipdComma = 43 :: 73 :: 80 :: 68 :: 44 :: [] from rfl,
      byteStarts_cons_iff] at hp
    obtain ⟨h0, hp⟩ := hp
    cases l0 with
    | nil => simp [byteStarts] at hp
    | cons x1 l1 =>
      rw [byteStarts_cons_iff] at hp
      obtain ⟨h1, hp⟩ := hp
      cases l1 with
      | nil => simp [byteStarts] at hp
      | cons x2 l2 =>
        rw [byteStarts_cons_iff] at hp
        obtain ⟨h2, hp⟩ := hp
        cases l2 with
        | nil => simp [byteStarts] at hp
        | cons x3 l3 =>
          rw [byteStarts_cons_iff] at hp
          obtain ⟨h3, hp⟩ := hp
          cases l3 with
          | nil => simp [byteStarts] at hp
          | cons x4 l4 =>
            rw [byteStarts_cons_iff] at hp
            obtain ⟨h4, _⟩ := hp
            exact ⟨l4, by subst_vars; rfl⟩

theorem mem_removeIpdComma_n {x : Nat} : ∀ (n : Nat) {l : List Nat},
    l.length ≤ n → x ∈ removeIpdComma l → x ∈ l := by
  intro n
  induction n with
  | zero =>
    intro l hlen hm
    have : l = [] := List.length_eq_zero.1 (by omega)
    subst this
    simp [removeIpdComma] at hm
  | succ k ih =>
    intro l hlen hm
    cases l with
    | nil => simp [removeIpdComma] at hm
    | cons b rest =>
      rw [removeIpdComma.eq_def] at hm
      dsimp only at hm
      by_cases hp : byteStarts ipdComma (b :: rest) = true
      · rw [if_pos hp] at hm
        obtain ⟨rest4, hsh⟩ := byteStarts_ipdComma_shape hp
        have hrest : rest = 73 :: 80 :: 68 :: 44 :: rest4 := by
          injection hsh with _ h2
        subst hrest
        dsimp only at hm
        have hlen4 : rest4.length ≤ k := by
          simp only [List.length_cons] at hlen
          omega
        have hx := ih hlen4 hm
        simp only [List.mem_cons]
        tauto
      · rw [if_neg hp] at hm
        rcases List.mem_cons.1 hm with h1 | h1
        · simp [h1]
        · have hlen' : rest.length ≤ k := by
            simp only [List.length_cons] at hlen
            omega
          exact List.mem_cons_of_mem _ (ih hlen' h1)

theorem mem_removeIpdComma {x : Nat} {l : List Nat}
    (h : x ∈ removeIpdComma l) : x ∈ l := by
  exact mem_removeIpdComma_n l.length (le_refl _) h

theorem splitComma_ne_nil : ∀ l : List Nat, splitComma l ≠ [] := by
  intro l
  induction l with
  | nil => simp [splitComma]
  | cons b rest ih =>
    simp only [splitComma]
    split
    · simp
    · cases h : splitComma rest with
      | nil => simp
      | cons g gs => simp

theorem mem_splitComma {x : Nat} : ∀ {l : List Nat} {p : List Nat},
    p ∈ splitComma l → x ∈ p → x ∈ l := by
  intro l
  induction l with
  | nil =>
    intro p hp hx
    simp only [splitComma, List.mem_singleton] at hp
    subst hp
    simp at hx
  | cons b rest ih =>
    intro p hp hx
    simp only [splitComma] at hp
    split at hp
    · rcases List.mem_cons.1 hp with h1 | h1
      · subst h1; simp at hx
      · exact List.mem_cons_of_mem _ (ih h1 hx)
    · cases hs : splitComma rest with
      | nil => exact absurd hs (splitComma_ne_nil rest)
      | cons g gs =>
        rw [hs] at hp
        rcases List.mem_cons.1 hp with h1 | h1
        · subst h1
          rcases List.mem_cons.1 hx with h2 | h2
          · simp [h2]
          · exact List.mem_cons_of_mem _ (ih (hs ▸ List.mem_cons_self g gs) h2)
        · exact List.mem_cons_of_mem _ (ih (hs ▸ List.mem_cons_of_mem g h1) hx)

/-! ## Python `int()`: a negative result exhibits a minus byte -/

theorem pyInt_nonneg_of_no_minus {s : List Nat} {n : Int}
    (h45 : 45 ∉ s) (h : pyInt s = some n) : 0 ≤ n := by
  unfold pyInt at h
  cases hs : pyStrip s with
  | nil => rw [hs] at h; cases h
  | cons c rest =>
    rw [hs] at h
    dsimp only at h
    have hc45 : c ≠ 45 := by
      intro hc
      exact h45 (mem_pyStrip (by rw [hs, hc]; exact List.mem_cons_self _ _))
    by_cases hc : c = 43
    · rw [if_pos hc] at h
      cases hp : parseDigits rest with
      | none => rw [hp] at h; cases h
      | some v => rw [hp] at h; simp at h; omega
    · rw [if_neg hc, if_neg hc45] at h
      cases hp : parseDigits (c :: rest) with
      | none => rw [hp] at h; cases h
      | some v => rw [hp] at h; simp at h; omega

/-- If the header interpretation returns a negative declared length,
the header contains a minus byte. -/
theorem headerParse_nonneg {hdr : List Nat} {l dlen : Int}
    (h45 : 45 ∉ hdr) (h : headerParse hdr = some (l, dlen)) : 0 ≤ dlen := by
  unfold headerParse at h
  dsimp only at h
  split at h
  · cases h
  · rename_i hlen
    set parts := splitComma (removeIpdComma hdr) with hparts
    cases h0 : pyInt (parts.getD 0 []) with
    | none => rw [h0] at h; cases h
    | some v0 =>
      cases h1 : pyInt (parts.getD 1 []) with
      | none => rw [h0, h1] at h; cases h
      | some v1 =>
        rw [h0, h1] at h
        cases h
        have hmem : 45 ∉ parts.getD 1 [] := by
          intro hm
          have hlt : 1 < parts.length := by omega
          have : parts.getD 1 [] ∈ parts := by
            rw [List.getD_eq_getElem parts [] hlt]
            exact List.getElem_mem hlt
          exact h45 (mem_removeIpdComma (mem_splitComma this hm))
        exact pyInt_nonneg_of_no_minus hmem h1

/-! ## Structure of one extraction step -/

/-- A found colon comes after the four `+IPD` marker bytes. -/
theorem colon_ge_four {raw : List Nat} {c : Nat}
    (hp : byteStarts ipdPat raw = true) (hc : findSub [58] raw = some c) :
    4 ≤ c := by
  cases raw with
  | nil => simp [byteStarts, ipdPat] at hp
  | cons a0 r0 =>
    simp only [ipdPat, byteStarts] at hp
    split at hp
    · cases r0 with
      | nil => simp [byteStarts] at hp
      | cons a1 r1 =>
        simp only [byteStarts] at hp
        split at hp
        · cases r1 with
          | nil => simp [byteStarts] at hp
          | cons a2 r2 =>
            simp only [byteStarts] at hp
            split at hp
            · cases r2 with
              | nil => simp [byteStarts] at hp
              | cons a3 r3 =>
                simp only [byteStarts] at hp
                split at hp
                · subst_vars
                  simp only [findSub, byteStarts] at hc
                  norm_num at hc
                  cases h3 : findSub [58] r3 with
                  | none => simp [h3] at hc
                  | some j =>
                    simp [h3] at hc
                    omega
                · simp at hp
            · simp at hp
        · simp at hp
    · simp at hp

/-- After trimming to the marker, a found colon bounds the buffer from
below: five bytes at least. -/
theorem trimmed_length_ge {raw : List Nat} {c : Nat}
    (hp : byteStarts ipdPat raw = true) (hc : findSub [58] raw = some c) :
    4 ≤ c ∧ c + 1 ≤ raw.length :=
  ⟨colon_ge_four hp hc, by simpa using findSub_bound hc⟩

/-- One step of the extraction loop either strictly shrinks the raw
buffer or changes nothing at all (the state the Python loop would spin
on forever). -/
theorem ipdStep_cont {link : Nat} {raw msg r m : List Nat}
    (h : ipdStep link raw msg = .cont r m) :
    r.length < raw.length ∨ (r = raw ∧ m = msg) := by
  unfold ipdStep at h
  cases hf : findSub ipdPat raw with
  | none => rw [hf] at h; cases h
  | some idx =>
    rw [hf] at h
    dsimp only at h
    have hidx : idx ≤ raw.length := by
      have := findSub_bound hf
      simp only [ipdPat, List.length_cons] at this
      omega
    have hpre : byteStarts ipdPat (raw.drop idx) = true := findSub_starts hf
    have hdroplen : (raw.drop idx).length ≤ raw.length := by
      simp [List.length_drop]
    unfold ipdBody at h
    cases hc : findSub [58] (raw.drop idx) with
    | none => rw [hc] at h; cases h
    | some c =>
      rw [hc] at h
      dsimp only at h
      obtain ⟨hc4, hclen⟩ := trimmed_length_ge hpre hc
      cases hh : headerParse ((raw.drop idx).take c) with
      | none =>
        rw [hh] at h
        cases h
        left
        simp only [List.length_drop]
        omega
      | some p =>
        obtain ⟨l, dlen⟩ := p
        rw [hh] at h
        dsimp only at h
        split at h
        · cases h
        · rename_i hcomp
          cases h
          by_cases hk : pyIdx (raw.drop idx).length ((c : Int) + 1 + dlen) = 0
          · cases hi0 : idx with
            | zero =>
              right
              subst hi0
              simp only [List.drop_zero] at hk ⊢
              refine ⟨by simp [pyDrop, hk], ?_⟩
              have hpay : pySlice raw ((c : Int) + 1) ((c : Int) + 1 + dlen) = [] := by
                simp [pySlice, hk]
              rw [hpay]
              split <;> simp
            | succ i' =>
              left
              simp only [pyDrop, hk, Nat.zero_le, List.drop_zero, List.length_drop]
              omega
          · left
            simp only [pyDrop, List.length_drop]
            have hn5 : 5 ≤ (raw.drop idx).length := by
              simp only [List.length_drop] at hclen ⊢
              omega
            simp only [List.length_drop] at *
            omega

/-- A `stop` outcome of the loop body leaves raw and msg untouched. -/
theorem ipdBody_stop_eq {link : Nat} {raw msg r m : List Nat}
    (h : ipdBody link raw msg = .stop r m) : r = raw ∧ m = msg := by
  unfold ipdBody at h
  cases hc : findSub [58] raw with
  | none => rw [hc] at h; cases h; exact ⟨rfl, rfl⟩
  | some c =>
    rw [hc] at h
    dsimp only at h
    cases hh : headerParse (raw.take c) with
    | none => rw [hh] at h; cases h
    | some p =>
      obtain ⟨l, dlen⟩ := p
      rw [hh] at h
      dsimp only at h
      split at h
      · cases h; exact ⟨rfl, rfl⟩
      · cases h

/-- A state the step leaves unchanged keeps the loop spinning: no fuel
decides it. -/
theorem extractN_spin {link : Nat} {raw msg : List Nat}
    (h : ipdStep link raw msg = .cont raw msg) :
    ∀ fuel, extractN link fuel raw msg = none := by
  intro fuel
  induction fuel with
  | zero => rfl
  | succ f ih =>
    rw [extractN, h]
    exact ih

/-- Any fuel beyond the buffer length computes the same result as the
saturated fuel. -/
theorem extractN_saturate (link : Nat) : ∀ fuel raw msg, raw.length < fuel →
    extractN link fuel raw msg = extract link raw msg := by
  intro fuel
  induction fuel using Nat.strong_induction_on with
  | _ fuel ih =>
    intro raw msg hlen
    obtain ⟨f, rfl⟩ : ∃ f, fuel = f + 1 := ⟨fuel - 1, by omega⟩
    rw [extractN]
    unfold extract
    rw [extractN]
    cases hs : ipdStep link raw msg with
    | stop r m => rfl
    | cont r m =>
      dsimp only
      rcases ipdStep_cont hs with hlt | hfix
      · have h1 : extractN link f r m = extract link r m :=
          ih f (by omega) r m (by omega)
        have h2 : extractN link raw.length r m = extract link r m :=
          ih raw.length (by omega) r m (by omega)
        rw [h1, h2]
      · obtain ⟨rfl, rfl⟩ := hfix
        rw [extractN_spin hs, extractN_spin hs]

/-- Unfold one iteration of the saturated loop. -/
theorem extract_unfold (link : Nat) (raw msg : List Nat) :
    extract link raw msg =
      match ipdStep link raw msg with
      | .stop r m => some (r, m)
      | .cont r m => extract link r m := by
  conv_lhs => unfold extract
  rw [extractN]
  cases hs : ipdStep link raw msg with
  | stop r m => rfl
  | cont r m =>
    dsimp only
    rcases ipdStep_cont hs with hlt | hfix
    · exact extractN_saturate link raw.length r m hlt
    · obtain ⟨rfl, rfl⟩ := hfix
      rw [extractN_spin hs]
      unfold extract
      rw [extractN_spin hs]


/-- A `stop` outcome of the loop body does not depend on the message
buffer. -/
theorem ipdBody_stop_msg {link : Nat} {raw msg : List Nat}
    (h : ipdBody link raw msg = .stop raw msg) :
    ∀ m', ipdBody link raw m' = .stop raw m' := by
  intro m'
  unfold ipdBody at h ⊢
  cases hc : findSub [58] raw with
  | none => rfl
  | some c =>
    rw [hc] at h
    dsimp only at h ⊢
    cases hh : headerParse (raw.take c) with
    | none =>
      rw [hh] at h
      dsimp only at h
      cases h
    | some p =>
      obtain ⟨l, dlen⟩ := p
      rw [hh] at h
      dsimp only at h ⊢
      split at h
      · rw [if_pos (by assumption)]
      · cases h

/-- A `stop` of the full step: the message buffer is untouched and the
raw buffer is at most trimmed to the marker; in the trimmed case the
body stopped on the trimmed buffer. -/
theorem ipdStep_stop_eq {link : Nat} {raw msg r m : List Nat}
    (h : ipdStep link raw msg = .stop r m) :
    m = msg ∧ ((findSub ipdPat raw = none ∧ r = raw) ∨
      (∃ idx, findSub ipdPat raw = some idx ∧ r = raw.drop idx ∧
        ipdBody link r msg = .stop r msg)) := by
  unfold ipdStep at h
  cases hf : findSub ipdPat raw with
  | none =>
    rw [hf] at h
    cases h
    exact ⟨rfl, Or.inl ⟨rfl, rfl⟩⟩
  | some idx =>
    rw [hf] at h
    dsimp only at h
    obtain ⟨h1, h2⟩ := ipdBody_stop_eq h
    subst h1
    subst h2
    exact ⟨rfl, Or.inr ⟨idx, rfl, rfl, h⟩⟩

/-- A stopped state is stable: stepping it again, with any message
buffer, stops at once without changing anything. -/
theorem ipdStep_stop_stable {link : Nat} {raw msg r m : List Nat}
    (h : ipdStep link raw msg = .stop r m) :
    ∀ m', ipdStep link r m' = .stop r m' := by
  intro m'
  obtain ⟨hm, hcase⟩ := ipdStep_stop_eq h
  subst hm
  rcases hcase with ⟨hf, rfl⟩ | ⟨idx, hf, rfl, hbody⟩
  · unfold ipdStep
    rw [hf]
  · have hpre := findSub_starts hf
    have h0 : findSub ipdPat (raw.drop idx) = some 0 :=
      findSub_zero_of_byteStarts hpre
    unfold ipdStep
    rw [h0]
    dsimp only
    rw [List.drop_zero]
    exact ipdBody_stop_msg hbody m'

/-- Resuming after a `stop`: appending further bytes to the stopped
state steps the same way as appending them to the original state. -/
theorem ipdStep_stop_resume {link : Nat} {raw msg r m : List Nat} (t : List Nat)
    (h : ipdStep link raw msg = .stop r m) :
    ipdStep link (raw ++ t) msg = ipdStep link (r ++ t) msg := by
  obtain ⟨hm, hcase⟩ := ipdStep_stop_eq h
  rcases hcase with ⟨hf, rfl⟩ | ⟨idx, hf, rfl, hbody⟩
  · rfl
  · have hidx : idx ≤ raw.length := by
      have := findSub_bound hf
      omega
    have hL : findSub ipdPat (raw ++ t) = some idx := findSub_append t hf
    have hpre : byteStarts ipdPat (raw.drop idx) = true := findSub_starts hf
    have hR : findSub ipdPat (raw.drop idx ++ t) = some 0 :=
      findSub_zero_of_byteStarts (byteStarts_append t hpre)
    unfold ipdStep
    rw [hL, hR]
    dsimp only
    rw [List.drop_append_of_le_length hidx, List.drop_zero]

/-- Python slicing from a nonnegative in-range start is unaffected by
appended bytes, up to carrying them along. -/
theorem pyDrop_append {raw : List Nat} {e : Int} (t : List Nat)
    (h0 : 0 ≤ e) (hle : e ≤ (raw.length : Int)) :
    pyDrop (raw ++ t) e = pyDrop raw e ++ t := by
  unfold pyDrop pyIdx
  rw [if_neg (by omega), if_neg (by omega)]
  have he : e.toNat ≤ raw.length := by omega
  have h1 : min e.toNat (raw ++ t).length = e.toNat := by
    simp only [List.length_append]
    omega
  have h2 : min e.toNat raw.length = e.toNat := by omega
  rw [h1, h2, List.drop_append_of_le_length he]

/-- A slice with nonnegative in-range bounds is unaffected by appended
bytes. -/
theorem pySlice_append {raw : List Nat} {a e : Int} (t : List Nat)
    (h0a : 0 ≤ a) (h0 : 0 ≤ e) (ha : a ≤ (raw.length : Int))
    (hle : e ≤ (raw.length : Int)) :
    pySlice (raw ++ t) a e = pySlice raw a e := by
  unfold pySlice pyIdx
  rw [if_neg (by omega), if_neg (by omega), if_neg (by omega), if_neg (by omega)]
  have hea : e.toNat ≤ raw.length := by omega
  have haa : a.toNat ≤ raw.length := by omega
  have h1 : min e.toNat (raw ++ t).length = e.toNat := by
    simp only [List.length_append]
    omega
  have h2 : min e.toNat raw.length = e.toNat := by omega
  have h3 : min a.toNat (raw ++ t).length = a.toNat := by
    simp only [List.length_append]
    omega
  have h4 : min a.toNat raw.length = a.toNat := by omega
  rw [h1, h2, h3, h4, List.take_append_of_le_length hea]

/-- Resuming after a `cont` (no minus byte in the buffer, so the
declared length is nonnegative): appending bytes commutes with the
step. -/
theorem ipdBody_cont_resume {link : Nat} {raw msg r m : List Nat} (t : List Nat)
    (hpre : byteStarts ipdPat raw = true) (h45 : 45 ∉ raw)
    (h : ipdBody link raw msg = .cont r m) :
    ipdBody link (raw ++ t) msg = .cont (r ++ t) m := by
  unfold ipdBody at h ⊢
  cases hc : findSub [58] raw with
  | none =>
    rw [hc] at h
    cases h
  | some c =>
    rw [hc] at h
    dsimp only at h
    obtain ⟨hc4, hclen⟩ := trimmed_length_ge hpre hc
    have hcL : findSub [58] (raw ++ t) = some c := findSub_append t hc
    rw [hcL]
    dsimp only
    have htake : (raw ++ t).take c = raw.take c :=
      List.take_append_of_le_length (by omega)
    rw [htake]
    cases hh : headerParse (raw.take c) with
    | none =>
      rw [hh] at h
      dsimp only at h
      cases h
      dsimp only
      rw [List.drop_append_of_le_length (by omega)]
    | some p =>
      obtain ⟨l, dlen⟩ := p
      rw [hh] at h
      dsimp only at h ⊢
      have hdlen : 0 ≤ dlen :=
        headerParse_nonneg (fun hmem => h45 (List.mem_of_mem_take hmem)) hh
      split at h
      · cases h
      · rename_i hcomp
        cases h
        rw [if_neg (by
          simp only [List.length_append]
          push_neg at hcomp ⊢
          omega)]
        have hE : ((c : Int) + 1 + dlen) ≤ (raw.length : Int) := by
          push_neg at hcomp
          exact hcomp
        rw [pyDrop_append t (by omega) hE,
          pySlice_append t (by omega) (by omega) (by push_neg at hcomp; omega) hE]

/-- The step-level version of `cont` resumption. -/
theorem ipdStep_cont_resume {link : Nat} {raw msg r m : List Nat} (t : List Nat)
    (h45 : 45 ∉ raw) (h : ipdStep link raw msg = .cont r m) :
    ipdStep link (raw ++ t) msg = .cont (r ++ t) m := by
  unfold ipdStep at h
  cases hf : findSub ipdPat raw with
  | none =>
    rw [hf] at h
    cases h
  | some idx =>
    rw [hf] at h
    dsimp only at h
    have hidx : idx ≤ raw.length := by
      have := findSub_bound hf
      omega
    have hpre := findSub_starts hf
    have h45d : 45 ∉ raw.drop idx := fun hm => h45 (List.mem_of_mem_drop hm)
    have hb := ipdBody_cont_resume t hpre h45d h
    unfold ipdStep
    rw [findSub_append t hf]
    dsimp only
    rw [List.drop_append_of_le_length hidx]
    exact hb


/-- The raw buffer a `cont` step produces only contains bytes of the
input buffer. -/
theorem ipdStep_cont_subset {link : Nat} {raw msg r m : List Nat}
    (h : ipdStep link raw msg = .cont r m) : ∀ x ∈ r, x ∈ raw := by
  unfold ipdStep at h
  cases hf : findSub ipdPat raw with
  | none =>
    rw [hf] at h
    cases h
  | some idx =>
    rw [hf] at h
    dsimp only at h
    unfold ipdBody at h
    cases hc : findSub [58] (raw.drop idx) with
    | none =>
      rw [hc] at h
      cases h
    | some c =>
      rw [hc] at h
      dsimp only at h
      cases hh : headerParse ((raw.drop idx).take c) with
      | none =>
        rw [hh] at h
        dsimp only at h
        cases h
        intro x hx
        exact List.mem_of_mem_drop (List.mem_of_mem_drop hx)
      | some p =>
        obtain ⟨l, dlen⟩ := p
        rw [hh] at h
        dsimp only at h
        split at h
        · cases h
        · cases h
          intro x hx
          unfold pyDrop at hx
          exact List.mem_of_mem_drop (List.mem_of_mem_drop hx)

/-- With no minus byte around, a `cont` step strictly shrinks the raw
buffer: declared lengths are nonnegative, so the loop makes progress. -/
theorem ipdStep_cont_decrease {link : Nat} {raw msg r m : List Nat}
    (h45 : 45 ∉ raw) (h : ipdStep link raw msg = .cont r m) :
    r.length < raw.length := by
  unfold ipdStep at h
  cases hf : findSub ipdPat raw with
  | none =>
    rw [hf] at h
    cases h
  | some idx =>
    rw [hf] at h
    dsimp only at h
    have hpre : byteStarts ipdPat (raw.drop idx) = true := findSub_starts hf
    unfold ipdBody at h
    cases hc : findSub [58] (raw.drop idx) with
    | none =>
      rw [hc] at h
      cases h
    | some c =>
      rw [hc] at h
      dsimp only at h
      obtain ⟨hc4, hclen⟩ := trimmed_length_ge hpre hc
      cases hh : headerParse ((raw.drop idx).take c) with
      | none =>
        rw [hh] at h
        dsimp only at h
        cases h
        simp only [List.length_drop] at hclen ⊢
        omega
      | some p =>
        obtain ⟨l, dlen⟩ := p
        rw [hh] at h
        dsimp only at h
        have hdlen : 0 ≤ dlen := headerParse_nonneg
          (fun hmem => h45 (List.mem_of_mem_drop (List.mem_of_mem_take hmem))) hh
        split at h
        · cases h
        · rename_i hcomp
          cases h
          push_neg at hcomp
          simp only [pyDrop, pyIdx, List.length_drop]
          rw [if_neg (by omega)]
          have h1 : 1 ≤ ((c : Int) + 1 + dlen).toNat := by omega
          have h2 : ((c : Int) + 1 + dlen).toNat ≤ (raw.drop idx).length := by
            simp only [List.length_drop]
            simp only [List.length_drop] at hcomp
            omega
          simp only [List.length_drop] at hclen h2 ⊢
          omega

/-- The raw buffer `extract` returns only contains bytes of the input
buffer. -/
theorem extract_subset_n {link : Nat} : ∀ (n : Nat) {raw msg r m : List Nat},
    raw.length ≤ n → extract link raw msg = some (r, m) → ∀ x ∈ r, x ∈ raw := by
  intro n
  induction n using Nat.strong_induction_on with
  | _ n ih =>
    intro raw msg r m hle h x hx
    rw [extract_unfold] at h
    cases hs : ipdStep link raw msg with
    | stop r0 m0 =>
      rw [hs] at h
      dsimp only at h
      cases h
      obtain ⟨hm, hcase⟩ := ipdStep_stop_eq hs
      rcases hcase with ⟨_, rfl⟩ | ⟨idx, _, rfl, _⟩
      · exact hx
      · exact List.mem_of_mem_drop hx
    | cont r1 m1 =>
      rw [hs] at h
      dsimp only at h
      rcases ipdStep_cont hs with hlt | hfix
      · have hx1 := ih r1.length (by omega) (le_refl _) h x hx
        exact ipdStep_cont_subset hs x hx1
      · obtain ⟨hfix1, hfix2⟩ := hfix
        rw [hfix1, hfix2] at hs h
        have hnone := extractN_spin hs (raw.length + 1)
        unfold extract at h
        rw [hnone] at h
        cases h

theorem extract_subset {link : Nat} {raw msg r m : List Nat}
    (h : extract link raw msg = some (r, m)) : ∀ x ∈ r, x ∈ raw := by
  exact extract_subset_n raw.length (le_refl _) h

/-- The state `extract` stops in is stable under further steps with any
message buffer. -/
theorem extract_stable_n {link : Nat} : ∀ (n : Nat) {raw msg r m : List Nat},
    raw.length ≤ n → extract link raw msg = some (r, m) →
    ∀ m', ipdStep link r m' = .stop r m' := by
  intro n
  induction n using Nat.strong_induction_on with
  | _ n ih =>
    intro raw msg r m hle h m'
    rw [extract_unfold] at h
    cases hs : ipdStep link raw msg with
    | stop r0 m0 =>
      rw [hs] at h
      dsimp only at h
      cases h
      exact ipdStep_stop_stable hs m'
    | cont r1 m1 =>
      rw [hs] at h
      dsimp only at h
      rcases ipdStep_cont hs with hlt | hfix
      · exact ih r1.length (by omega) (le_refl _) h m'
      · obtain ⟨hfix1, hfix2⟩ := hfix
        rw [hfix1, hfix2] at hs h
        have hnone := extractN_spin hs (raw.length + 1)
        unfold extract at h
        rw [hnone] at h
        cases h

theorem extract_stable {link : Nat} {raw msg r m : List Nat}
    (h : extract link raw msg = some (r, m)) :
    ∀ m', ipdStep link r m' = .stop r m' := by
  exact extract_stable_n raw.length (le_refl _) h

/-- A stable state extracts to itself with any message buffer. -/
theorem extract_of_stable {link : Nat} {r : List Nat}
    (h : ∀ m', ipdStep link r m' = .stop r m') (m : List Nat) :
    extract link r m = some (r, m) := by
  rw [extract_unfold, h m]

/-- With no minus byte in the raw buffer, the extraction loop always
terminates. -/
theorem extract_isSome_n {link : Nat} : ∀ (n : Nat) {raw : List Nat} (msg : List Nat),
    raw.length ≤ n → 45 ∉ raw → (extract link raw msg).isSome := by
  intro n
  induction n using Nat.strong_induction_on with
  | _ n ih =>
    intro raw msg hle h45
    rw [extract_unfold]
    cases hs : ipdStep link raw msg with
    | stop r0 m0 => rfl
    | cont r1 m1 =>
      dsimp only
      have hlt := ipdStep_cont_decrease h45 hs
      have h45r : 45 ∉ r1 := fun hm => h45 (ipdStep_cont_subset hs 45 hm)
      exact ih r1.length (by omega) m1 (le_refl _) h45r

theorem extract_isSome {link : Nat} {raw : List Nat} (msg : List Nat)
    (h45 : 45 ∉ raw) : (extract link raw msg).isSome := by
  exact extract_isSome_n raw.length msg (le_refl _) h45

/-- Resumption of the whole extraction loop: if the loop stops on
`raw`, then running it on `raw ++ t` is running it on the stopped state
with `t` appended. -/
theorem extract_resume_n {link : Nat} : ∀ (n : Nat) {raw msg r m : List Nat} (t : List Nat),
    raw.length ≤ n → 45 ∉ raw → extract link raw msg = some (r, m) →
    extract link (raw ++ t) msg = extract link (r ++ t) m := by
  intro n
  induction n using Nat.strong_induction_on with
  | _ n ih =>
    intro raw msg r m t hle h45 h
    rw [extract_unfold] at h
    cases hs : ipdStep link raw msg with
    | stop r0 m0 =>
      rw [hs] at h
      dsimp only at h
      cases h
      rw [extract_unfold, ipdStep_stop_resume t hs]
      obtain ⟨rfl, _⟩ := ipdStep_stop_eq hs
      exact (extract_unfold link (r ++ t) m).symm
    | cont r1 m1 =>
      rw [hs] at h
      dsimp only at h
      have hlt := ipdStep_cont_decrease h45 hs
      have h45r : 45 ∉ r1 := fun hm => h45 (ipdStep_cont_subset hs 45 hm)
      have hres := ipdStep_cont_resume t h45 hs
      rw [extract_unfold, hres]
      dsimp only
      exact ih r1.length (by omega) t (le_refl _) h45r h

theorem extract_resume {link : Nat} {raw msg r m : List Nat} (t : List Nat)
    (h45 : 45 ∉ raw) (h : extract link raw msg = some (r, m)) :
    extract link (raw ++ t) msg = extract link (r ++ t) m := by
  exact extract_resume_n raw.length t (le_refl _) h45 h


/-- The extraction step only ever appends to the message buffer, and
what it appends does not depend on the buffer's prior contents. -/
theorem ipdStep_msg (link : Nat) (raw a b : List Nat) :
    ipdStep link raw (a ++ b) =
      match ipdStep link raw b with
      | .stop r m => .stop r (a ++ m)
      | .cont r m => .cont r (a ++ m) := by
  unfold ipdStep
  cases hf : findSub ipdPat raw with
  | none => rfl
  | some idx =>
    dsimp only
    unfold ipdBody
    cases hc : findSub [58] (raw.drop idx) with
    | none => rfl
    | some c =>
      dsimp only
      cases hh : headerParse ((raw.drop idx).take c) with
      | none => rfl
      | some p =>
        obtain ⟨l, dlen⟩ := p
        dsimp only
        by_cases hcmp :
            ((raw.drop idx).length : Int) < (c : Int) + 1 + dlen
        · rw [if_pos hcmp, if_pos hcmp]
        · rw [if_neg hcmp, if_neg hcmp]
          dsimp only
          by_cases hl : l = (link : Int)
          · rw [if_pos hl, if_pos hl, List.append_assoc]
          · rw [if_neg hl, if_neg hl]

theorem extractN_msg (link : Nat) : ∀ (fuel : Nat) (raw a b : List Nat),
    extractN link fuel raw (a ++ b) =
      (extractN link fuel raw b).map (fun p => (p.1, a ++ p.2)) := by
  intro fuel
  induction fuel with
  | zero => intro raw a b; rfl
  | succ f ih =>
    intro raw a b
    rw [extractN, extractN, ipdStep_msg]
    cases hs : ipdStep link raw b with
    | stop r m => rfl
    | cont r m =>
      dsimp only
      exact ih r a m

/-- Running `extract` with a prior message buffer is `extract` with the empty
one plus that prior buffer in front. -/
theorem extract_msg (link : Nat) (raw m : List Nat) :
    extract link raw m = (extract link raw []).map (fun p => (p.1, m ++ p.2)) := by
  have h := extractN_msg link (raw.length + 1) raw m []
  rw [List.append_nil] at h
  exact h

/-! ## Lemmas about the newline phase -/

/-- The remainder `splitNl` leaves contains no newline byte. -/
theorem splitNl_rest_no_nl : ∀ m : List Nat, 10 ∉ (splitNl m).2 := by
  intro m
  induction m with
  | nil => simp [splitNl]
  | cons b rest ih =>
    simp only [splitNl]
    by_cases hb : b = 10
    · rw [if_pos hb]
      exact ih
    · rw [if_neg hb]
      cases hp : (splitNl rest).1 with
      | nil =>
        dsimp only
        intro hm
        rcases List.mem_cons.1 hm with h1 | h1
        · exact hb h1.symm
        · exact ih h1
      | cons l ls => exact ih

/-- A buffer with no newline splits into no lines and itself. -/
theorem splitNl_of_no_nl : ∀ {m : List Nat}, 10 ∉ m → splitNl m = ([], m) := by
  intro m
  induction m with
  | nil => intro _; rfl
  | cons b rest ih =>
    intro h
    have hb : b ≠ 10 := fun hq => h (hq ▸ List.mem_cons_self _ _)
    have hr : 10 ∉ rest := fun hq => h (List.mem_cons_of_mem _ hq)
    simp only [splitNl, if_neg hb, ih hr]

/-- Splitting a grown buffer: the complete lines of `m` come first,
then the lines that the remainder of `m` plus the new bytes form. -/
theorem splitNl_append : ∀ (m d : List Nat),
    splitNl (m ++ d) =
      ((splitNl m).1 ++ (splitNl ((splitNl m).2 ++ d)).1,
        (splitNl ((splitNl m).2 ++ d)).2) := by
  intro m
  induction m with
  | nil => intro d; simp [splitNl]
  | cons b rest ih =>
    intro d
    have ihd := ih d
    by_cases hb : b = 10
    · subst hb
      simp only [List.cons_append, List.append_eq, splitNl, eq_self_iff_true,
        if_true, ihd]
    · simp only [List.cons_append, List.append_eq, splitNl, if_neg hb, ihd]
      cases hp : (splitNl rest).1 with
      | nil =>
        simp only [List.nil_append, List.append_eq, splitNl, if_neg hb]
      | cons l ls =>
        simp only [List.cons_append]


/-! ## Incremental versus batch parsing -/

/-- What `parseP` computes once the extraction result is known. -/
theorem parseP_eq {link : Nat} {s : PState} {r m : List Nat}
    (h : extract link s.raw s.msg = some (r, m)) :
    parseP link s =
      some (⟨r, (splitNl m).2⟩, ((splitNl m).1).filterMap lineFrame) := by
  unfold parseP
  rw [h]

/-- The stable parser states: any further step stops at once, and the
message buffer holds no complete line. -/
def StableP (link : Nat) (s : PState) : Prop :=
  (∀ m', ipdStep link s.raw m' = .stop s.raw m') ∧ 10 ∉ s.msg

/-- A state `parseP` returns is stable. -/
theorem parseP_stable {link : Nat} {s s' : PState} {fs : List TFrame}
    (h : parseP link s = some (s', fs)) : StableP link s' := by
  unfold parseP at h
  cases he : extract link s.raw s.msg with
  | none =>
    rw [he] at h
    cases h
  | some p =>
    obtain ⟨r, m⟩ := p
    rw [he] at h
    dsimp only at h
    cases h
    exact ⟨extract_stable he, splitNl_rest_no_nl m⟩

/-- On a stable state, one more `parse` call is a no-op. -/
theorem parseP_of_stable {link : Nat} {s : PState} (h : StableP link s) :
    parseP link s = some (s, []) := by
  obtain ⟨hstep, hnl⟩ := h
  have hex : extract link s.raw s.msg = some (s.raw, s.msg) :=
    extract_of_stable hstep s.msg
  rw [parseP_eq hex, splitNl_of_no_nl hnl]
  rfl

/-- The central incremental-parsing lemma: starting from a stable,
minus-free state, feeding the remaining bytes one at a time (a `parse`
call after each byte) produces exactly the frames that one `parse` call
on the fully fed buffer produces, and the same final state. -/
theorem runInc_eq (link : Nat) : ∀ (t : List Nat) (s : PState) (acc : List TFrame),
    StableP link s → 45 ∉ s.raw → 45 ∉ t →
    ∃ s' fs, parseP link ⟨s.raw ++ t, s.msg⟩ = some (s', fs) ∧
      runInc link s acc t = some (s', acc ++ fs) := by
  intro t
  induction t with
  | nil =>
    intro s acc hst _ _
    refine ⟨s, [], ?_, ?_⟩
    · rw [List.append_nil]
      have := parseP_of_stable hst
      simpa using this
    · simp [runInc]
  | cons b bs ih =>
    intro s acc hst h45raw h45t
    have hb45 : (45 : Nat) ∉ s.raw ++ [b] := by
      intro hm
      rcases List.mem_append.1 hm with h1 | h1
      · exact h45raw h1
      · simp only [List.mem_singleton] at h1
        exact h45t (by rw [← h1]; exact List.mem_cons_self _ _)
    have hbs45 : (45 : Nat) ∉ bs := fun hm => h45t (List.mem_cons_of_mem _ hm)
    -- the parse call after feeding the one byte
    have hsome : (extract link (s.raw ++ [b]) s.msg).isSome :=
      extract_isSome s.msg hb45
    obtain ⟨p1, hp1⟩ := Option.isSome_iff_exists.1 hsome
    obtain ⟨r1, m1⟩ := p1
    have hparse1 : parseP link ⟨s.raw ++ [b], s.msg⟩ =
        some (⟨r1, (splitNl m1).2⟩, ((splitNl m1).1).filterMap lineFrame) :=
      parseP_eq (s := ⟨s.raw ++ [b], s.msg⟩) hp1
    have hstable1 : StableP link ⟨r1, (splitNl m1).2⟩ := parseP_stable hparse1
    have h45r1 : (45 : Nat) ∉ r1 := fun hm => hb45 (extract_subset hp1 45 hm)
    obtain ⟨s', fs2, hP2, hR2⟩ :=
      ih ⟨r1, (splitNl m1).2⟩ (acc ++ ((splitNl m1).1).filterMap lineFrame)
        hstable1 h45r1 hbs45
    -- name the extraction of the recursive parse
    unfold parseP at hP2
    dsimp only at hP2
    cases he2 : extract link (r1 ++ bs) ((splitNl m1).2) with
    | none =>
      rw [he2] at hP2
      cases hP2
    | some p2 =>
      obtain ⟨r2, m2⟩ := p2
      rw [he2] at hP2
      dsimp only at hP2
      -- the tail of the extraction is independent of the prior message
      -- buffer: recover the run from the empty buffer
      have hmsg0 := extract_msg link (r1 ++ bs) ((splitNl m1).2)
      rw [he2] at hmsg0
      cases he0 : extract link (r1 ++ bs) [] with
      | none =>
        rw [he0] at hmsg0
        cases hmsg0
      | some p0 =>
        obtain ⟨r0, d0⟩ := p0
        rw [he0] at hmsg0
        simp only [Option.map_some', Option.some.injEq, Prod.mk.injEq] at hmsg0
        obtain ⟨rfl, rfl⟩ := hmsg0
        -- the one batch extraction on the fully fed buffer
        have hbatch : extract link ((s.raw ++ [b]) ++ bs) s.msg =
            some (r2, m1 ++ d0) := by
          rw [extract_resume bs hb45 hp1, extract_msg link (r1 ++ bs) m1, he0]
          rfl
        simp only [Option.some.injEq, Prod.mk.injEq] at hP2
        obtain ⟨hs1, hs2⟩ := hP2
        refine ⟨s', ((splitNl m1).1).filterMap lineFrame ++ fs2, ?_, ?_⟩
        · have hx : (⟨s.raw ++ b :: bs, s.msg⟩ : PState) =
              ⟨(s.raw ++ [b]) ++ bs, s.msg⟩ := by
            simp
          rw [hx, parseP_eq hbatch, splitNl_append m1 d0]
          dsimp only
          rw [List.filterMap_append, hs1, hs2]
        · unfold runInc
          rw [show feedP s [b] = ⟨s.raw ++ [b], s.msg⟩ from rfl, hparse1]
          dsimp only
          rw [hR2, List.append_assoc]

/-- The empty parser state is stable. -/
theorem stableP_init (link : Nat) : StableP link ⟨[], []⟩ := by
  constructor
  · intro m'
    rfl
  · simp

/-! ## Claims -/

/-- The input of the C1 counterexample: a `+IPD` header declaring the
negative length `-12` (which Python's `int()` parses), followed by the
five bytes `[0x02] 'h' 'i' '\n' '!'`. -/
def c1Input : List Nat :=
  [43, 73, 80, 68, 44, 48, 44, 45, 49, 50, 58, 2, 104, 105, 10, 33]

/-- C1 (counterexample): the claim fails as stated.  On `c1Input`,
feeding everything at once makes the negative-length slice
`raw_buf[11:-1]` deliver the four bytes `[0x02] 'h' 'i' '\n'` to the
message buffer, so one `parse` call yields the final-transcript frame
`"hi"`; feeding one byte at a time, the same slice at the moment the
colon arrives is empty and the parser discards the header, so no frame
is ever produced.  The two frame sequences differ. -/
theorem c1_counterexample :
    (runBatch 0 c1Input).map (fun p => p.2) = some [TFrame.final [104, 105]] ∧
    (runIncremental 0 c1Input).map (fun p => p.2) = some [] := by
  constructor
  · decide
  · decide

/-- C1 (amended): chunking-invariance of the inbound frame assembler
(`TranscriptParser.feed` / `TranscriptParser.parse`) holds for every
byte sequence that contains no `0x2D` (`'-'`) byte — in particular for
everything a well-formed AT/`+IPD` byte stream carries.  Feeding such a
sequence one byte at a time with a `parse` call after each byte
produces exactly the same parsed transcript frames, in the same order,
and the same final parser state, as feeding the whole sequence in one
`feed` followed by one `parse`. -/
theorem c1_chunking_invariance (link : Nat) (bytes : List Nat)
    (h45 : 45 ∉ bytes) :
    runIncremental link bytes = runBatch link bytes := by
  obtain ⟨s', fs, hP, hR⟩ :=
    runInc_eq link bytes ⟨[], []⟩ [] (stableP_init link) (by simp) h45
  unfold runIncremental runBatch
  rw [hR]
  simp only [List.nil_append] at hP ⊢
  rw [hP]

/-- C1 (witness): the amended invariance applied to a concrete stream
containing one complete `+IPD` frame with a final transcript line. -/
theorem c1_witness :
    (45 : Nat) ∉
        ([43, 73, 80, 68, 44, 48, 44, 52, 58, 2, 104, 105, 10] : List Nat) ∧
      runIncremental 0 [43, 73, 80, 68, 44, 48, 44, 52, 58, 2, 104, 105, 10] =
        runBatch 0 [43, 73, 80, 68, 44, 48, 44, 52, 58, 2, 104, 105, 10] :=
  ⟨by decide, c1_chunking_invariance 0 _ (by decide)⟩


/-- C2: no short reads.  If the reassembly buffer's first `+IPD` header
(at offset `i`, colon at offset `c` of the trimmed buffer) declares a
payload of length `L` but the buffer holds fewer than `header_end + L`
bytes, the parser emits nothing from that header and consumes none of
its bytes: the extraction stops with the buffer merely trimmed to the
marker (only noise before the frame start is dropped), the message
buffer untouched; the parse call surfaces only lines that were already
complete in the message buffer beforehand. -/
theorem c2_no_short_reads (link : Nat) (raw msg : List Nat) (i c : Nat)
    (l L : Int)
    (hf : findSub ipdPat raw = some i)
    (hc : findSub [58] (raw.drop i) = some c)
    (hh : headerParse ((raw.drop i).take c) = some (l, L))
    (hL : 0 ≤ L)
    (hshort : ((raw.drop i).length : Int) < (c : Int) + 1 + L) :
    extract link raw msg = some (raw.drop i, msg) ∧
    parseP link ⟨raw, msg⟩ =
      some (⟨raw.drop i, (splitNl msg).2⟩,
        ((splitNl msg).1).filterMap lineFrame) := by
  have hstep : ipdStep link raw msg = .stop (raw.drop i) msg := by
    unfold ipdStep
    rw [hf]
    dsimp only
    unfold ipdBody
    rw [hc]
    dsimp only
    rw [hh]
    dsimp only
    rw [if_pos hshort]
  have hext : extract link raw msg = some (raw.drop i, msg) := by
    rw [extract_unfold, hstep]
  exact ⟨hext, parseP_eq (s := ⟨raw, msg⟩) hext⟩

/-- C2 (witness): a buffer holding `+IPD,0,9:hi` — the header declares
nine payload bytes but only two have arrived — is left untouched. -/
theorem c2_witness :
    extract 0 [43, 73, 80, 68, 44, 48, 44, 57, 58, 104, 105] [] =
        some ([43, 73, 80, 68, 44, 48, 44, 57, 58, 104, 105], []) ∧
      parseP 0 ⟨[43, 73, 80, 68, 44, 48, 44, 57, 58, 104, 105], []⟩ =
        some (⟨[43, 73, 80, 68, 44, 48, 44, 57, 58, 104, 105], []⟩, []) := by
  have h := c2_no_short_reads 0
    [43, 73, 80, 68, 44, 48, 44, 57, 58, 104, 105] [] 0 8 0 9
    (by decide) (by decide) (by decide) (by decide) (by decide)
  exact h

/-- C3: malformed-header recovery with forward progress.  The buffer is
a corrupted header (the `+IPD` marker followed by junk `j`; the bytes
before the first colon do not interpret as a header — too few fields or
an `int()` failure) and then one well-formed frame
`fh ++ ':' ++ payload` addressed to the consumer's link, whose header
`fh` declares exactly `payload.length` bytes.  The parser discards the
fixed minimum of four bytes at the corrupt marker, resumes the scan at
the valid frame's marker, terminates (the extraction returns a value),
consumes the whole buffer, and delivers exactly the valid frame's
payload. -/
theorem c3_malformed_recovery (link : Nat) (j fh payload msg : List Nat)
    (c : Nat) (L : Int)
    (hcol : findSub [58] (ipdPat ++ j ++ (fh ++ 58 :: payload)) = some c)
    (hbad : headerParse ((ipdPat ++ j ++ (fh ++ 58 :: payload)).take c) = none)
    (hfind : findSub ipdPat (j ++ (fh ++ 58 :: payload)) = some j.length)
    (hnc : findSub [58] fh = none)
    (hgood : headerParse fh = some ((link : Int), L))
    (hlen : L = (payload.length : Int)) :
    extract link (ipdPat ++ j ++ (fh ++ 58 :: payload)) msg =
        some ([], msg ++ payload) ∧
      parseP link ⟨ipdPat ++ j ++ (fh ++ 58 :: payload), []⟩ =
        some (⟨[], (splitNl payload).2⟩,
          ((splitNl payload).1).filterMap lineFrame) := by
  subst hlen
  set F := fh ++ 58 :: payload with hF
  have hbuf : ipdPat ++ j ++ F = ipdPat ++ (j ++ F) := by
    rw [List.append_assoc]
  have hFlen : F.length = fh.length + 1 + payload.length := by
    simp [hF, List.length_append]
    omega
  -- step 1: the corrupt header costs four bytes
  have hstep1 : ipdStep link (ipdPat ++ j ++ F) msg = .cont (j ++ F) msg := by
    unfold ipdStep
    have h0 : findSub ipdPat (ipdPat ++ j ++ F) = some 0 := by
      rw [hbuf]
      exact findSub_zero_of_byteStarts (byteStarts_self_append _ _)
    rw [h0]
    dsimp only
    rw [List.drop_zero]
    unfold ipdBody
    rw [hcol]
    dsimp only
    rw [hbad]
    dsimp only
    rw [hbuf, show (4 : Nat) = ipdPat.length from rfl, List.drop_left]
  -- step 2: the valid frame is consumed whole
  have hstep2 : ipdStep link (j ++ F) msg = .cont [] (msg ++ payload) := by
    unfold ipdStep
    rw [hfind]
    dsimp only
    rw [List.drop_left]
    unfold ipdBody
    have hcF : findSub [58] F = some fh.length := findSub_single_append payload hnc
    rw [hcF]
    dsimp only
    rw [show F.take fh.length = fh from by rw [hF]; exact List.take_left fh _, hgood]
    dsimp only
    rw [if_neg (by push_neg; rw [hFlen]; push_cast; omega)]
    have hidx : pyIdx F.length ((fh.length : Int) + 1 + (payload.length : Int)) =
        F.length := by
      unfold pyIdx
      rw [if_neg (by omega)]
      rw [hFlen]
      omega
    have hidx1 : pyIdx F.length ((fh.length : Int) + 1) = fh.length + 1 := by
      unfold pyIdx
      rw [if_neg (by omega)]
      rw [hFlen]
      omega
    have hdropF : pyDrop F ((fh.length : Int) + 1 + (payload.length : Int)) = [] := by
      unfold pyDrop
      rw [hidx, List.drop_length]
    have hsliceF : pySlice F ((fh.length : Int) + 1)
        ((fh.length : Int) + 1 + (payload.length : Int)) = payload := by
      unfold pySlice
      rw [hidx, hidx1, List.take_length, hF]
      rw [show fh.length + 1 = fh.length + 1 from rfl]
      rw [show (fh ++ 58 :: payload).drop (fh.length + 1) = payload from by
        rw [show fh.length + 1 = fh.length + 1 from rfl, List.drop_append 1]
        rfl]
    rw [hdropF, hsliceF, if_pos rfl]
  have hext : extract link (ipdPat ++ j ++ F) msg = some ([], msg ++ payload) := by
    rw [extract_unfold, hstep1]
    dsimp only
    rw [extract_unfold, hstep2]
    dsimp only
    rfl
  refine ⟨hext, ?_⟩
  have hext0 : extract link (ipdPat ++ j ++ F) [] = some ([], payload) := by
    have h := extract_msg link (ipdPat ++ j ++ F) msg
    rw [hext] at h
    cases he0 : extract link (ipdPat ++ j ++ F) [] with
    | none =>
      rw [he0] at h
      cases h
    | some p0 =>
      obtain ⟨ra, pa⟩ := p0
      rw [he0] at h
      simp only [Option.map_some', Option.some.injEq, Prod.mk.injEq] at h
      obtain ⟨h1, h2⟩ := h
      rw [h1, List.append_cancel_left h2.symm]
  exact parseP_eq (s := ⟨ipdPat ++ j ++ F, []⟩) hext0

/-- C3 (witness): the corrupt header `+IPD,x:` followed by the valid
frame `+IPD,0,4:` carrying `[0x02] 'h' 'i' '\n'` yields exactly the one
final-transcript frame `"hi"`. -/
theorem c3_witness :
    extract 0 (ipdPat ++ [44, 120, 58] ++
        ([43, 73, 80, 68, 44, 48, 44, 52] ++ 58 :: [2, 104, 105, 10])) [] =
        some ([], [2, 104, 105, 10]) ∧
      parseP 0 ⟨ipdPat ++ [44, 120, 58] ++
        ([43, 73, 80, 68, 44, 48, 44, 52] ++ 58 :: [2, 104, 105, 10]), []⟩ =
        some (⟨[], []⟩, [TFrame.final [104, 105]]) := by
  have h := c3_malformed_recovery 0 [44, 120, 58] [43, 73, 80, 68, 44, 48, 44, 52]
    [2, 104, 105, 10] [] 6 4
    (by decide) (by decide) (by decide) (by decide) (by decide) (by decide)
  exact h


/-- C7: AudioChunk round trip.  Encoding a payload of `N` bytes,
`0 < N ≤ 65535` (the `u16` ceiling that bounds every chunk the client
stages), as `0x01 ‖ u16-LE length ‖ payload` and running the server's
receive steps on the resulting bytes reproduces exactly the original
payload, leaving any following bytes untouched. -/
theorem c7_audio_roundtrip (p rest : List Nat)
    (h1 : 0 < p.length) (h2 : p.length ≤ 65535) :
    decodeFrame (encodeAudioChunk p ++ rest) = some (.audio p, rest) := by
  have hmod : p.length % 256 + 256 * (p.length / 256 % 256) = p.length := by
    have h256 : p.length / 256 < 256 := by omega
    rw [Nat.mod_eq_of_lt h256]
    omega
  simp only [encodeAudioChunk, u16le, List.cons_append, List.nil_append]
  rw [decodeFrame]
  rw [if_pos rfl]
  dsimp only
  rw [if_pos (by simp)]
  simp only [List.getD_cons_zero, List.getD_cons_succ, List.drop_succ_cons,
    List.drop_zero, hmod]
  rw [if_pos (by simp), List.take_left, List.drop_left]

/-- C7 (witness): the round trip at a concrete three-byte payload. -/
theorem c7_witness :
    0 < ([7, 8, 9] : List Nat).length ∧
      ([7, 8, 9] : List Nat).length ≤ 65535 ∧
      decodeFrame (encodeAudioChunk [7, 8, 9] ++ [2, 5]) =
        some (.audio [7, 8, 9], [2, 5]) :=
  ⟨by decide, by decide, c7_audio_roundtrip [7, 8, 9] [2, 5] (by decide) (by decide)⟩

/-- Characterize `byteStarts` as an existence of a suffix. -/
theorem byteStarts_iff_exists {p l : List Nat} :
    byteStarts p l = true ↔ ∃ v, l = p ++ v := by
  constructor
  · intro h
    induction p generalizing l with
    | nil => exact ⟨l, rfl⟩
    | cons a as ih =>
      cases l with
      | nil => simp [byteStarts] at h
      | cons b bs =>
        rw [byteStarts_cons_iff] at h
        obtain ⟨rfl, h2⟩ := h
        obtain ⟨v, rfl⟩ := ih h2
        exact ⟨v, rfl⟩
  · rintro ⟨v, rfl⟩
    exact byteStarts_self_append p v

/-- Trailing-whitespace stripping cannot affect whether the stripped
handshake starts with `START` (the marker neither starts nor ends in
whitespace). -/
theorem start_strip_iff (hs : List Nat) :
    byteStarts startBytes (pyStrip hs) = true ↔
      byteStarts startBytes (hs.dropWhile isPyWs) = true := by
  have hdef : pyStrip hs =
      (((hs.dropWhile isPyWs).reverse).dropWhile isPyWs).reverse := rfl
  rw [hdef]
  set u := hs.dropWhile isPyWs with hu
  constructor
  · intro h
    have hw : ((u.reverse.dropWhile isPyWs).reverse) ++
        ((u.reverse.takeWhile isPyWs).reverse) = u := by
      rw [← List.reverse_append, List.takeWhile_append_dropWhile,
        List.reverse_reverse]
    have := byteStarts_append ((u.reverse.takeWhile isPyWs).reverse) h
    rw [hw] at this
    exact this
  · intro h
    obtain ⟨v, hv⟩ := byteStarts_iff_exists.1 h
    rw [hv, List.reverse_append]
    rw [List.dropWhile_append]
    by_cases he : (v.reverse.dropWhile isPyWs).isEmpty
    · rw [if_pos he]
      rw [show (startBytes.reverse).dropWhile isPyWs = startBytes.reverse from
        by decide]
      rw [List.reverse_reverse]
      have := byteStarts_self_append startBytes []
      simpa using this
    · rw [if_neg he, List.reverse_append, List.reverse_reverse]
      exact byteStarts_self_append startBytes _

/-- C8 (counterexample): the claim fails as stated.  The handshake
bytes `b"STARTED"` are not the literal `b"START\n"`, yet `start_server`
accepts the connection and proceeds to a session, because its test is
`handshake.strip().startswith(b"START")`, not an equality with the
literal. -/
theorem c8_counterexample :
    handshakeAccepted [83, 84, 65, 82, 84, 69, 68] = true ∧
      ([83, 84, 65, 82, 84, 69, 68] : List Nat) ≠ startBytes ++ [10] := by
  constructor
  · decide
  · decide

/-- C8 (amended): the server accepts exactly those connections whose
first received bytes are ASCII whitespace followed by the literal
`START` followed by anything; every other first chunk (and the empty
one) is rejected, the connection closed and never retried.  In
particular the literal `b"START\n"` is accepted. -/
theorem c8_handshake_accept (hs : List Nat) :
    handshakeAccepted hs = true ↔
      ∃ ws rest, hs = ws ++ startBytes ++ rest ∧ ∀ c ∈ ws, isPyWs c = true := by
  unfold handshakeAccepted
  rw [Bool.and_eq_true, start_strip_iff]
  constructor
  · rintro ⟨_, hbp⟩
    obtain ⟨v, hv⟩ := byteStarts_iff_exists.1 hbp
    refine ⟨hs.takeWhile isPyWs, v, ?_, ?_⟩
    · conv_lhs => rw [← List.takeWhile_append_dropWhile (p := isPyWs) (l := hs)]
      rw [hv, List.append_assoc]
    · intro c hc
      exact List.mem_takeWhile_imp hc
  · rintro ⟨ws, rest, rfl, hws⟩
    constructor
    · simp [startBytes]
    · have h83 : (startBytes ++ rest).dropWhile isPyWs = startBytes ++ rest := by
        rw [show startBytes ++ rest = 83 :: ([84, 65, 82, 84] ++ rest) from rfl]
        exact List.dropWhile_cons_of_neg (by decide)
      have hdw : (ws ++ startBytes ++ rest).dropWhile isPyWs =
          startBytes ++ rest := by
        rw [List.append_assoc, List.dropWhile_append,
          if_pos (by rw [List.isEmpty_iff, List.dropWhile_eq_nil_iff]; exact hws)]
        exact h83
      rw [hdw]
      exact byteStarts_self_append startBytes rest

/-- C9: all-or-nothing exact receive.  For every requested count `n`,
peer byte stream and kernel delivery schedule, the updated server's
`recv_exact` returns either the empty sentinel (timeout, closed peer)
or exactly `n` bytes, and the New_Realtime server's
`StreamingSession._recv_exact` either escapes with the timeout, returns
the `None` sentinel, or returns exactly `n` bytes — never a non-empty
short read. -/
theorem c9_recv_exact_all_or_nothing (n : Nat) (data : List Nat)
    (sched : List (Option Nat)) :
    (recv_exact n data sched = [] ∨ (recv_exact n data sched).length = n) ∧
      (recv_exact2 n data sched = .timedOut ∨
        recv_exact2 n data sched = .eofNone ∨
        ∃ d, recv_exact2 n data sched = .ok d ∧ d.length = n) := by
  constructor
  · have go : ∀ (sch : List (Option Nat)) (buf : List Nat) (dat : List Nat),
        buf.length ≤ n →
        (recv_exact_go buf n dat sch = [] ∨
          (recv_exact_go buf n dat sch).length = n) := by
      intro sch
      induction sch with
      | nil =>
        intro buf dat hle
        unfold recv_exact_go
        split
        · right
          omega
        · left
          rfl
      | cons ev rest ih =>
        intro buf dat hle
        unfold recv_exact_go
        split
        · right
          omega
        · rename_i hgt
          cases ev with
          | none => left; rfl
          | some k =>
            dsimp only
            split
            · left
              rfl
            · rename_i hm
              apply ih
              have hmin : (dat.take (min (n - buf.length) (min k dat.length))).length =
                  min (n - buf.length) (min k dat.length) := by
                rw [List.length_take]
                omega
              rw [List.length_append, hmin]
              omega
    exact go sched [] data (by simp)
  · have go : ∀ (sch : List (Option Nat)) (buf : List Nat) (dat : List Nat),
        buf.length ≤ n →
        (recv_exact2_go buf n dat sch = .timedOut ∨
          recv_exact2_go buf n dat sch = .eofNone ∨
          ∃ d, recv_exact2_go buf n dat sch = .ok d ∧ d.length = n) := by
      intro sch
      induction sch with
      | nil =>
        intro buf dat hle
        unfold recv_exact2_go
        split
        · right; right
          exact ⟨buf, rfl, by omega⟩
        · right; left
          rfl
      | cons ev rest ih =>
        intro buf dat hle
        unfold recv_exact2_go
        split
        · right; right
          exact ⟨buf, rfl, by omega⟩
        · rename_i hgt
          cases ev with
          | none => left; rfl
          | some k =>
            dsimp only
            split
            · right; left
              rfl
            · rename_i hm
              apply ih
              have hmin : (dat.take (min (n - buf.length) (min k dat.length))).length =
                  min (n - buf.length) (min k dat.length) := by
                rw [List.length_take]
                omega
              rw [List.length_append, hmin]
              omega
    exact go sched [] data (by simp)


/-- A byte that is not whitespace survives `dropWhile`. -/
theorem mem_dropWhile_of_not_ws {x : Nat} {l : List Nat}
    (hx : isPyWs x = false) (h : x ∈ l) : x ∈ l.dropWhile isPyWs := by
  induction l with
  | nil => simp at h
  | cons y ys ih =>
    by_cases hy : isPyWs y = true
    · rw [List.dropWhile_cons_of_pos hy]
      rcases List.mem_cons.1 h with h1 | h1
      · rw [h1] at hx
        rw [hy] at hx
        cases hx
      · exact ih h1
    · rw [List.dropWhile_cons_of_neg hy]
      exact h

/-- A byte that is not whitespace survives the full strip. -/
theorem mem_pyStrip_of_not_ws {x : Nat} {l : List Nat}
    (hx : isPyWs x = false) (h : x ∈ l) : x ∈ pyStrip l := by
  unfold pyStrip
  rw [List.mem_reverse]
  exact mem_dropWhile_of_not_ws hx
    (List.mem_reverse.2 (mem_dropWhile_of_not_ws hx h))

/-- Stripping leaves something exactly when a non-whitespace byte is
present. -/
theorem pyStrip_ne_nil_iff {s : List Nat} :
    pyStrip s ≠ [] ↔ ∃ x ∈ s, isPyWs x = false := by
  constructor
  · intro h
    by_contra hall
    push_neg at hall
    have hws : ∀ x ∈ s, isPyWs x = true := by
      intro x hx
      have := hall x hx
      revert this
      cases isPyWs x <;> simp
    apply h
    unfold pyStrip
    rw [List.dropWhile_eq_nil_iff.2 hws]
    rfl
  · rintro ⟨x, hx, hnx⟩
    exact List.ne_nil_of_mem (mem_pyStrip_of_not_ws hnx hx)

/-- The fold of `check_transcript`'s line loop only ever stores a line
that passed the filters. -/
theorem ctGo_spec : ∀ (ls : List (List Nat)) (latest : Option (List Nat)),
    (∀ t, latest = some t → t ≠ [] ∧ t ≠ keepaliveBytes) →
    ∀ t, ctGo latest ls = some t → t ≠ [] ∧ t ≠ keepaliveBytes := by
  intro ls
  induction ls with
  | nil =>
    intro latest hinv t h
    exact hinv t h
  | cons ln rest ih =>
    intro latest hinv t h
    rw [ctGo] at h
    split at h
    · exact ih latest hinv t h
    · rename_i hcond
      push_neg at hcond
      refine ih _ ?_ t h
      intro t' ht'
      cases ht'
      exact hcond

/-- The display-state fold keeps a non-whitespace byte in
`accumulated_text ++ current_interim` from the moment `updated` is
set. -/
theorem tpGo_nonws : ∀ (ls : List (List Nat)) (acc intr : List Nat) (upd : Bool),
    (upd = true → ∃ x ∈ acc ++ intr, isPyWs x = false) →
    (tpGo acc intr upd ls).2.2 = true →
    ∃ x ∈ (tpGo acc intr upd ls).1 ++ (tpGo acc intr upd ls).2.1,
      isPyWs x = false := by
  intro ls
  induction ls with
  | nil =>
    intro acc intr upd hinv h
    exact hinv h
  | cons ln rest ih =>
    intro acc intr upd hinv h
    rw [tpGo.eq_def] at h ⊢
    dsimp only at h ⊢
    by_cases hlen : ln.length < 2
    · rw [if_pos hlen] at h ⊢
      exact ih acc intr upd hinv h
    · rw [if_neg hlen] at h ⊢
      cases ln with
      | nil => simp at hlen
      | cons t0 tl =>
        dsimp only at h ⊢
        by_cases htext : pyStrip tl = []
        · rw [if_pos htext] at h ⊢
          exact ih acc intr upd hinv h
        · rw [if_neg htext] at h ⊢
          obtain ⟨x, hxmem, hxws⟩ := pyStrip_ne_nil_iff.1 htext
          have hxstrip : x ∈ pyStrip tl := mem_pyStrip_of_not_ws hxws hxmem
          by_cases h2 : t0 = 2
          · rw [if_pos h2] at h ⊢
            refine ih _ _ _ (fun _ => ⟨x, ?_, hxws⟩) h
            simp only [List.append_nil, List.mem_append, List.append_assoc]
            tauto
          · rw [if_neg h2] at h ⊢
            by_cases h1 : t0 = 1
            · rw [if_pos h1] at h ⊢
              refine ih _ _ _ (fun _ => ⟨46, ?_, by decide⟩) h
              simp only [List.mem_append, List.mem_cons]
              right
              right
              simp
            · rw [if_neg h1] at h ⊢
              exact ih acc intr upd hinv h

/-- C10: keepalive and empty-line filtering.  The newline phase of
`SpeechClient.check_transcript` returns `None` or a line that is
neither empty nor the literal `KEEPALIVE` (empty, whitespace-only and
keepalive lines are consumed silently), and `TranscriptParser.parse`
returns `None` or a non-empty display string. -/
theorem c10_no_empty_or_keepalive :
    (∀ (tbuf t : List Nat), (checkTranscriptLines tbuf).1 = some t →
      t ≠ [] ∧ t ≠ keepaliveBytes) ∧
    (∀ (acc intr msg t : List Nat), tpParseResult acc intr msg = some t →
      t ≠ []) := by
  constructor
  · intro tbuf t h
    unfold checkTranscriptLines at h
    dsimp only at h
    exact ctGo_spec (splitNl tbuf).1 none (by intro t' ht'; cases ht') t h
  · intro acc intr msg t h
    unfold tpParseResult at h
    dsimp only at h
    split at h
    · rename_i hupd
      have hnw := tpGo_nonws (splitNl msg).1 acc intr false (by intro hc; cases hc) hupd
      obtain ⟨x, hxmem, hxws⟩ := hnw
      cases h
      exact pyStrip_ne_nil_iff.2 ⟨x, hxmem, hxws⟩
    · cases h

/-- C10 (witness): a buffer holding a whitespace line, a `KEEPALIVE`
line and the line `"hi"` surfaces `"hi"`, and a final-transcript line
`[0x02] "hi"` makes `parse` return the non-empty display `"hi"`. -/
theorem c10_witness :
    (([104, 105] : List Nat) ≠ [] ∧ ([104, 105] : List Nat) ≠ keepaliveBytes) ∧
      ([104, 105] : List Nat) ≠ [] :=
  ⟨c10_no_empty_or_keepalive.1 [32, 10, 75, 69, 69, 80, 65, 76, 73, 86, 69, 10,
      104, 105, 10] [104, 105] (by decide),
    c10_no_empty_or_keepalive.2 [] [] [2, 104, 105, 10] [104, 105] (by decide)⟩

/-- Predicate `writesGuarded` holds for a loop trace from any starting guard
state, because every iteration re-observes the flag before anything
else. -/
theorem writesGuarded_tLoop : ∀ (ins : List TIter) (s : Bool),
    writesGuarded s (tLoop ins) = true := by
  intro ins
  induction ins with
  | nil => intro s; rfl
  | cons i rest ih =>
    intro s
    rw [tLoop]
    by_cases hf : i.flagSet
    · rw [if_neg (by simp [hf])]
      dsimp only [writesGuarded]
      by_cases hg : i.gotItem
      · rw [if_pos hg]
        dsimp only [writesGuarded]
        by_cases hok : i.sendOk
        · rw [if_pos hok]
          unfold tLoopKa
          by_cases hka : i.kaDue
          · rw [if_pos hka]
            dsimp only [writesGuarded]
            by_cases hkok : i.kaOk
            · rw [if_pos hkok]
              simp [ih]
            · rw [if_neg hkok]
              rfl
          · rw [if_neg hka]
            simp [ih]
        · rw [if_neg hok]
          rfl
      · rw [if_neg hg]
        unfold tLoopKa
        by_cases hka : i.kaDue
        · rw [if_pos hka]
          dsimp only [writesGuarded]
          by_cases hkok : i.kaOk
          · rw [if_pos hkok]
            simp [ih]
          · rw [if_neg hkok]
            rfl
        · rw [if_neg hka]
          exact ih true
    · rw [if_pos (by simp [hf])]
      rfl

/-- C6: liveness-flag write guard.  On every schedule of observations,
the transcript loop's action trace satisfies: nothing at all — in
particular no transcript or keepalive write — follows an observation of
the cleared `session_active` flag (the loop exits at once), and every
write is covered by a set-flag observation with no cleared observation
in between. -/
theorem c6_liveness_flag_guard (ins : List TIter) :
    noActAfterClear (tLoop ins) = true ∧
      writesGuarded false (tLoop ins) = true := by
  constructor
  · induction ins with
    | nil => rfl
    | cons i rest ih =>
      rw [tLoop]
      by_cases hf : i.flagSet
      · rw [if_neg (by simp [hf])]
        dsimp only [noActAfterClear]
        by_cases hg : i.gotItem
        · rw [if_pos hg]
          dsimp only [noActAfterClear]
          by_cases hok : i.sendOk
          · rw [if_pos hok]
            unfold tLoopKa
            by_cases hka : i.kaDue
            · rw [if_pos hka]
              dsimp only [noActAfterClear]
              by_cases hkok : i.kaOk
              · rw [if_pos hkok]
                exact ih
              · rw [if_neg hkok]
                rfl
            · rw [if_neg hka]
              exact ih
          · rw [if_neg hok]
            rfl
        · rw [if_neg hg]
          unfold tLoopKa
          by_cases hka : i.kaDue
          · rw [if_pos hka]
            dsimp only [noActAfterClear]
            by_cases hkok : i.kaOk
            · rw [if_pos hkok]
              exact ih
            · rw [if_neg hkok]
              rfl
          · rw [if_neg hka]
            exact ih
      · rw [if_pos (by simp [hf])]
        rfl
  · exact writesGuarded_tLoop ins false

/-- C5: the idle-timeout path is broken in the code.  An AudioChunk at
t = 100 s starts one recognition session (worker start count 1); the
generator consumes it; at t = 105.2 s the generator's idle check fires
("No audio for 5s — ending session") and the worker thread ends — but
`is_running` is left `True`.  The next AudioChunk at t = 106 s therefore
does not create a second session: `handle_audio` sees
`current_session.is_running` still `True`, the worker start count stays
1, and the chunk is queued into a session whose worker has already
exited (no consumer).  The claim's expected behaviour — a second
recognition worker for the later audio — does not occur. -/
theorem c5_idle_timeout_no_second_worker :
    (phRun [.audio 100000, .genPoll 100100, .genPoll 105200,
        .audio 106000]).workerStarts = 1 ∧
      (phRun [.audio 100000, .genPoll 100100, .genPoll 105200,
        .audio 106000]).cur =
        some ⟨true, 106000, true, 1⟩ := by
  constructor
  · decide
  · decide


/-- A found single-byte pattern is a member. -/
theorem hasSub_single_mem {c : Nat} {l : List Nat}
    (h : hasSub [c] l = true) : c ∈ l := by
  unfold hasSub at h
  cases hf : findSub [c] l with
  | none => rw [hf] at h; cases h
  | some i =>
    have hp := findSub_starts hf
    cases hd : l.drop i with
    | nil => rw [hd] at hp; simp [byteStarts] at hp
    | cons x xs =>
      rw [hd, byteStarts_cons_iff] at hp
      obtain ⟨rfl, _⟩ := hp
      refine List.mem_of_mem_drop (l := l) (n := i) ?_
      rw [hd]
      exact List.mem_cons_self c xs

theorem not_mem_of_hasSub_single_false {c : Nat} {l : List Nat}
    (h : ¬ hasSub [c] l = true) : c ∉ l := by
  intro hm
  have hs := findSub_single_mem hm
  exact h hs

/-- When one side of an append equation is at most as long as the other
side's first part, it is a prefix of it. -/
theorem left_of_append_eq {a b c e : List Nat} (h : a ++ b = c ++ e)
    (hle : a.length ≤ c.length) : ∃ w, a ++ w = c := by
  refine ⟨b.take (c.length - a.length), ?_⟩
  have h2 : List.take c.length (a ++ b) = List.take c.length (c ++ e) := by
    rw [h]
  rw [List.take_left] at h2
  rw [show c.length = a.length + (c.length - a.length) from by omega,
    List.take_append] at h2
  exact h2

/-- With no CRLF around, the echo filter passes everything through. -/
theorem strip_at_echo_no_crlf {d : List Nat}
    (h : hasSub crlfBytes d = false) : strip_at_echo d = d := by
  unfold strip_at_echo
  split
  · rfl
  · unfold stripEchoLines
    cases d with
    | nil => rfl
    | cons b rest =>
      have hnone : findSub crlfBytes (b :: rest) = none := by
        unfold hasSub at h
        cases hf : findSub crlfBytes (b :: rest) with
        | none => rfl
        | some i => rw [hf] at h; cases h
      show stripEchoLinesN (b :: rest).length (b :: rest) = b :: rest
      rw [show (b :: rest).length = rest.length + 1 from rfl,
        stripEchoLinesN.eq_def]
      dsimp only
      rw [hnone]

/-- In `data ++ sendOkBytes` whose only `SEND OK` occurrence is the
final one, `find` locates the token at the very end, so the tail
`accumulated[idx + 7:]` that `_wait_send_ok` (New_Realtime) returns is
empty. -/
theorem findSub_sok_at_end {data : List Nat}
    (hsok : hasSub sendOkBytes (data ++ sendOkBytes.dropLast) = false) :
    ∃ idx, findSub sendOkBytes (data ++ sendOkBytes) = some idx ∧
      (data ++ sendOkBytes).drop (idx + 7) = [] := by
  have hsplit : data ++ sendOkBytes = (data ++ sendOkBytes.dropLast) ++ [75] := by
    simp only [List.append_assoc]
    rfl
  have hfull : hasSub sendOkBytes (data ++ sendOkBytes) = true := by
    have h := hasSub_of_middle sendOkBytes data []
    simpa using h
  unfold hasSub at hfull
  cases hf : findSub sendOkBytes (data ++ sendOkBytes) with
  | none => rw [hf] at hfull; cases hfull
  | some idx =>
    refine ⟨idx, rfl, ?_⟩
    have hbound := findSub_bound hf
    simp only [List.length_append, sendOkBytes, List.length_cons,
      List.length_nil] at hbound
    have hge : data.length ≤ idx := by
      by_contra hlt
      push_neg at hlt
      have hst := findSub_starts hf
      obtain ⟨r, hr⟩ := byteStarts_iff_exists.1 hst
      have hdecomp : data ++ sendOkBytes =
          (data ++ sendOkBytes).take idx ++ (sendOkBytes ++ r) := by
        rw [← hr, List.take_append_drop]
      have htkl : ((data ++ sendOkBytes).take idx).length = idx := by
        simp only [List.length_take, List.length_append]
        simp only [sendOkBytes, List.length_cons, List.length_nil]
        omega
      have hdecomp2 : ((data ++ sendOkBytes).take idx ++ sendOkBytes) ++ r =
          (data ++ sendOkBytes.dropLast) ++ [75] := by
        rw [List.append_assoc, ← hdecomp]
        exact hsplit
      obtain ⟨w, hw⟩ := left_of_append_eq hdecomp2 (by
        simp only [List.length_append, htkl, List.length_dropLast]
        simp only [sendOkBytes, List.length_cons, List.length_nil]
        omega)
      have hmid : hasSub sendOkBytes
          ((data ++ sendOkBytes).take idx ++ sendOkBytes) = true := by
        have h := hasSub_of_middle sendOkBytes ((data ++ sendOkBytes).take idx) []
        simpa using h
      have hcontra := hasSub_of_prefix ⟨w, hw⟩ hmid
      rw [hcontra] at hsok
      cases hsok
    apply List.drop_eq_nil_of_le
    simp only [List.length_append, sendOkBytes, List.length_cons, List.length_nil]
    omega

/-- Running the New_Realtime prompt wait over reads that total `data`
followed by the prompt byte — with no prompt byte or failure token
inside `data` — returns `True`.  The accumulated `data` bytes are not
part of the result: the function discards them on every path. -/
theorem waitPromptNR_found {data : List Nat}
    (herr : hasSub errorBytes data = false)
    (hlink : hasSub linkInvalidBytes data = false) :
    ∀ (sch : List (List Nat)) (acc : List Nat),
      acc ++ sch.flatten = data ++ [62] → 62 ∉ acc →
      waitPromptNR acc sch = true := by
  intro sch
  induction sch with
  | nil =>
    intro acc hacc hnm
    exfalso
    simp only [List.flatten_nil, List.append_nil] at hacc
    exact hnm (hacc ▸ List.mem_append.2 (Or.inr (List.mem_singleton.2 rfl)))
  | cons ch rest ih =>
    intro acc hacc hnm
    rw [waitPromptNR]
    by_cases hch : ch = []
    · rw [if_pos hch]
      apply ih
      · subst hch
        simpa using hacc
      · exact hnm
    · rw [if_neg hch]
      dsimp only
      have hacc2 : (acc ++ ch) ++ rest.flatten = data ++ [62] := by
        simp only [List.flatten_cons, ← List.append_assoc] at hacc ⊢
        exact hacc
      by_cases h62acc : hasSub [62] (acc ++ ch) = true
      · rw [if_pos h62acc]
      · rw [if_neg h62acc]
        have hne : rest.flatten ≠ [] := by
          intro hq
          rw [hq, List.append_nil] at hacc2
          exact not_mem_of_hasSub_single_false h62acc
            (hacc2 ▸ List.mem_append.2 (Or.inr (List.mem_singleton.2 rfl)))
        obtain ⟨w, hw⟩ := left_of_append_eq hacc2 (by
          have hr1 : 1 ≤ rest.flatten.length := by
            cases hq : rest.flatten with
            | nil => exact absurd hq hne
            | cons y ys => simp
          have heq := congrArg List.length hacc2
          simp only [List.length_append, List.length_cons,
            List.length_nil] at heq ⊢
          omega)
        rw [if_neg (by
          intro hor
          rcases hor with h1 | h1
          · have h2 := hasSub_of_prefix ⟨w, hw⟩ h1
            rw [h2] at herr
            cases herr
          · have h2 := hasSub_of_prefix ⟨w, hw⟩ h1
            rw [h2] at hlink
            cases hlink)]
        exact ih (acc ++ ch) hacc2 (not_mem_of_hasSub_single_false h62acc)

/-- Running the New_Realtime completion wait over reads that total
`data` followed by `SEND OK` — the tokens occurring nowhere earlier —
succeeds with an empty leftover: every byte read while blocked before
the token is dropped along with it. -/
theorem waitSendOkNR_drops {data : List Nat}
    (hsok : hasSub sendOkBytes (data ++ sendOkBytes.dropLast) = false)
    (hsfail : hasSub sendFailBytes (data ++ sendOkBytes) = false)
    (hlink : hasSub linkInvalidBytes (data ++ sendOkBytes) = false) :
    ∀ (sch : List (List Nat)) (acc : List Nat),
      acc ++ sch.flatten = data ++ sendOkBytes → sch.flatten ≠ [] →
      waitSendOkNR acc sch = (true, []) := by
  have hsplit : data ++ sendOkBytes = (data ++ sendOkBytes.dropLast) ++ [75] := by
    simp only [List.append_assoc]
    rfl
  intro sch
  induction sch with
  | nil =>
    intro acc hacc hflne
    exact absurd rfl hflne
  | cons ch rest ih =>
    intro acc hacc hflne
    rw [waitSendOkNR]
    by_cases hch : ch = []
    · rw [if_pos hch]
      apply ih
      · subst hch
        simpa using hacc
      · subst hch
        simpa using hflne
    · rw [if_neg hch]
      dsimp only
      have hacc2 : (acc ++ ch) ++ rest.flatten = data ++ sendOkBytes := by
        simp only [List.flatten_cons, ← List.append_assoc] at hacc ⊢
        exact hacc
      by_cases hrfl : rest.flatten = []
      · have hfull : acc ++ ch = data ++ sendOkBytes := by
          rw [hrfl, List.append_nil] at hacc2
          exact hacc2
        obtain ⟨idx, hfs, hdrop⟩ := findSub_sok_at_end hsok
        rw [hfull, hfs]
        dsimp only
        rw [hdrop]
      · have hlen1 : 1 ≤ rest.flatten.length := by
          cases hq : rest.flatten with
          | nil => exact absurd hq hrfl
          | cons y ys => simp
        obtain ⟨w, hw⟩ := left_of_append_eq (hsplit ▸ hacc2) (by
          have heq := congrArg List.length hacc2
          simp only [List.length_append, List.length_cons,
            List.length_nil] at heq ⊢
          simp only [sendOkBytes, List.length_cons, List.length_nil,
            List.length_dropLast] at heq ⊢
          omega)
        have hnofind : findSub sendOkBytes (acc ++ ch) = none := by
          cases hf : findSub sendOkBytes (acc ++ ch) with
          | none => rfl
          | some i =>
            have hhs : hasSub sendOkBytes (acc ++ ch) = true := by
              unfold hasSub
              rw [hf]
              rfl
            have h2 := hasSub_of_prefix ⟨w, hw⟩ hhs
            rw [h2] at hsok
            cases hsok
        rw [hnofind]
        dsimp only
        rw [if_neg (by
          intro hor
          rcases hor with h1 | h1
          · have h2 := hasSub_of_prefix ⟨w ++ [75], by
              rw [← List.append_assoc, hw, ← hsplit]⟩ h1
            rw [h2] at hsfail
            cases hsfail
          · have h2 := hasSub_of_prefix ⟨w ++ [75], by
              rw [← List.append_assoc, hw, ← hsplit]⟩ h1
            rw [h2] at hlink
            cases hlink)]
        exact ih (acc ++ ch) hacc2 hrfl

/-- C4 (counterexample): the claim fails as stated, in both clients.
Updated client: one `esp_send_data` call whose prompt wait reads a
`+IPD` transcript frame and then an `ERROR` token returns
`LeftoverBytes = b""` — the frame bytes read while blocked are
discarded — even though after legal `'>'`-removal and echo-stripping
those bytes are non-empty.  New_Realtime client: a fully successful
`esp_send_data_fast` call whose prompt wait reads a non-empty `+IPD`
frame also returns `LeftoverBytes = b""` — its `_wait_for_prompt`
discards its reads even on the success path — and its `_wait_send_ok`
keeps only the bytes after `SEND OK`, dropping those read before the
token. -/
theorem c4_counterexample :
    (esp_send_data [88]
        [⟨[[43, 73, 80, 68, 44, 49, 44, 53, 58, 72, 69, 76, 76, 79],
           [13, 10, 69, 82, 82, 79, 82, 13, 10]], [], []⟩] = (false, []) ∧
      strip_at_echo
          ((([[43, 73, 80, 68, 44, 49, 44, 53, 58, 72, 69, 76, 76, 79],
              [13, 10, 69, 82, 82, 79, 82, 13, 10]] : List (List Nat)).flatten).filter
            (· ≠ 62)) ≠ []) ∧
    (esp_send_data_fast [88]
        [⟨[[43, 73, 80, 68, 44, 49, 44, 53, 58, 72, 69, 76, 76, 79], [62]], [],
          [[83, 69, 78, 68, 32, 79, 75]]⟩] = (true, []) ∧
      ([43, 73, 80, 68, 44, 49, 44, 53, 58, 72, 69, 76, 76, 79] : List Nat) ≠ []) ∧
    waitSendOkNR [] [[72, 105, 83, 69, 78, 68, 32, 79, 75, 33]] = (true, [33]) := by
  refine ⟨⟨?_, ?_⟩, ⟨?_, ?_⟩, ?_⟩ <;> decide

/-- C4 (amended): what each client actually preserves.  Updated client
(`esp_send_data`): on the success paths the accumulated non-token reads
come back as the leftover — the prompt wait returns them minus every
`'>'` byte through the echo filter, and the completion wait returns the
pre-buffer plus reads minus the `SEND OK` token through the echo filter
(stated for CRLF-free data, where the echo line filter passes bytes
through unchanged); the ERROR-token and timeout paths discard them, per
the counterexample.  New_Realtime client (`esp_send_data_fast`):
`_wait_for_prompt` returns only a boolean, so the bytes it read are
dropped even on success; `_wait_send_ok` returns only the bytes after
`SEND OK`; hence a successful single-chunk send returns exactly the
bytes collected between the burst writes (`rx_during`), dropping
everything read while blocked in either wait. -/
theorem c4_leftover_paths :
    (∀ (script : List (List Nat)) (data : List Nat),
      script.flatten = data ++ [62] →
      62 ∉ data →
      hasSub errorBytes data = false →
      hasSub linkInvalidBytes data = false →
      hasSub crlfBytes data = false →
      waitForPrompt [] script = (true, data)) ∧
    (∀ (script : List (List Nat)) (pre data : List Nat),
      pre ++ script.flatten = data ++ sendOkBytes →
      script.flatten ≠ [] →
      hasSub sendOkBytes (data ++ sendOkBytes.dropLast) = false →
      hasSub sendFailBytes (data ++ sendOkBytes) = false →
      hasSub linkInvalidBytes (data ++ sendOkBytes) = false →
      removeSub sendOkBytes (data ++ sendOkBytes) = data →
      hasSub crlfBytes data = false →
      waitSendOk pre script = (true, data)) ∧
    (∀ (script : List (List Nat)) (data : List Nat),
      script.flatten = data ++ [62] →
      62 ∉ data →
      hasSub errorBytes data = false →
      hasSub linkInvalidBytes data = false →
      waitPromptNR [] script = true) ∧
    (∀ (script : List (List Nat)) (data : List Nat),
      script.flatten = data ++ sendOkBytes →
      hasSub sendOkBytes (data ++ sendOkBytes.dropLast) = false →
      hasSub sendFailBytes (data ++ sendOkBytes) = false →
      hasSub linkInvalidBytes (data ++ sendOkBytes) = false →
      waitSendOkNR [] script = (true, [])) ∧
    (∀ (pscript sscript : List (List Nat)) (pdata sdata rx : List Nat) (d : Nat),
      pscript.flatten = pdata ++ [62] →
      62 ∉ pdata →
      hasSub errorBytes pdata = false →
      hasSub linkInvalidBytes pdata = false →
      sscript.flatten = sdata ++ sendOkBytes →
      hasSub sendOkBytes (sdata ++ sendOkBytes.dropLast) = false →
      hasSub sendFailBytes (sdata ++ sendOkBytes) = false →
      hasSub linkInvalidBytes (sdata ++ sendOkBytes) = false →
      esp_send_data_fast [d] [⟨pscript, rx, sscript⟩] = (true, rx)) := by
  refine ⟨?_, ?_, ?_, ?_, ?_⟩
  · intro script data hflat h62 herr hlink hcrlf
    have hfilter : (data ++ [62]).filter (· ≠ 62) = data := by
      rw [List.filter_append]
      rw [List.filter_eq_self.2 (by
        intro a ha
        simp only [decide_eq_true_eq, ne_eq]
        intro hq
        exact h62 (hq ▸ ha))]
      simp
    have go : ∀ (sch : List (List Nat)) (acc : List Nat),
        acc ++ sch.flatten = data ++ [62] → 62 ∉ acc →
        waitForPrompt acc sch = (true, data) := by
      intro sch
      induction sch with
      | nil =>
        intro acc hacc hnm
        exfalso
        simp only [List.flatten_nil, List.append_nil] at hacc
        exact hnm (hacc ▸ List.mem_append.2 (Or.inr (List.mem_singleton.2 rfl)))
      | cons ch rest ih =>
        intro acc hacc hnm
        rw [waitForPrompt]
        by_cases hch : ch = []
        · rw [if_pos hch]
          apply ih
          · subst hch
            simpa using hacc
          · exact hnm
        · rw [if_neg hch]
          dsimp only
          have hacc2 : (acc ++ ch) ++ rest.flatten = data ++ [62] := by
            simp only [List.flatten_cons, ← List.append_assoc] at hacc ⊢
            exact hacc
          by_cases h62acc : hasSub [62] (acc ++ ch) = true
          · rw [if_pos h62acc]
            have hmem62 := hasSub_single_mem h62acc
            have hrest : rest.flatten = [] := by
              by_contra hne
              obtain ⟨w, hw⟩ := left_of_append_eq hacc2 (by
                have hr1 : 1 ≤ rest.flatten.length := by
                  cases hq : rest.flatten with
                  | nil => exact absurd hq hne
                  | cons y ys => simp
                have heq := congrArg List.length hacc2
                simp only [List.length_append, List.length_cons,
                  List.length_nil] at heq ⊢
                omega)
              exact h62 (hw ▸ List.mem_append.2 (Or.inl hmem62))
            have hfull : acc ++ ch = data ++ [62] := by
              rw [hrest, List.append_nil] at hacc2
              exact hacc2
            rw [hfull, hfilter, strip_at_echo_no_crlf hcrlf]
          · rw [if_neg h62acc]
            have hne : rest.flatten ≠ [] := by
              intro hq
              rw [hq, List.append_nil] at hacc2
              exact not_mem_of_hasSub_single_false h62acc
                (hacc2 ▸ List.mem_append.2 (Or.inr (List.mem_singleton.2 rfl)))
            obtain ⟨w, hw⟩ := left_of_append_eq hacc2 (by
              have hr1 : 1 ≤ rest.flatten.length := by
                cases hq : rest.flatten with
                | nil => exact absurd hq hne
                | cons y ys => simp
              have heq := congrArg List.length hacc2
              simp only [List.length_append, List.length_cons,
                List.length_nil] at heq ⊢
              omega)
            rw [if_neg (by
              intro hor
              rcases hor with h1 | h1
              · have := hasSub_of_prefix ⟨w, hw⟩ h1
                rw [this] at herr
                cases herr
              · have := hasSub_of_prefix ⟨w, hw⟩ h1
                rw [this] at hlink
                cases hlink)]
            exact ih (acc ++ ch) hacc2
              (not_mem_of_hasSub_single_false h62acc)
    exact go script [] (by simpa using hflat) (by simp)
  · intro script pre data hflat hne hsok hsfail hlink hrem hcrlf
    have hsplit : data ++ sendOkBytes = (data ++ sendOkBytes.dropLast) ++ [75] := by
      simp only [List.append_assoc]
      rfl
    have go : ∀ (sch : List (List Nat)) (acc : List Nat),
        acc ++ sch.flatten = data ++ sendOkBytes → sch.flatten ≠ [] →
        waitSendOk acc sch = (true, data) := by
      intro sch
      induction sch with
      | nil =>
        intro acc hacc hflne
        exact absurd rfl hflne
      | cons ch rest ih =>
        intro acc hacc hflne
        rw [waitSendOk]
        by_cases hch : ch = []
        · rw [if_pos hch]
          apply ih
          · subst hch
            simpa using hacc
          · subst hch
            simpa using hflne
        · rw [if_neg hch]
          dsimp only
          have hacc2 : (acc ++ ch) ++ rest.flatten = data ++ sendOkBytes := by
            simp only [List.flatten_cons, ← List.append_assoc] at hacc ⊢
            exact hacc
          by_cases hrfl : rest.flatten = []
          · have hfull : acc ++ ch = data ++ sendOkBytes := by
              rw [hrfl, List.append_nil] at hacc2
              exact hacc2
            have hmk : findMarker (acc ++ ch) = some sendOkBytes := by
              unfold findMarker
              rw [if_pos (by
                rw [hfull, show data ++ sendOkBytes = data ++ sendOkBytes ++ []
                  from by simp]
                exact hasSub_of_middle sendOkBytes data [])]
            rw [hmk]
            dsimp only
            rw [hfull, hrem, strip_at_echo_no_crlf hcrlf]
            simp
          · have hlen1 : 1 ≤ rest.flatten.length := by
              cases hq : rest.flatten with
              | nil => exact absurd hq hrfl
              | cons y ys => simp
            obtain ⟨w, hw⟩ := left_of_append_eq (hsplit ▸ hacc2) (by
              have heq := congrArg List.length hacc2
              simp only [List.length_append, List.length_cons,
                List.length_nil] at heq ⊢
              simp only [sendOkBytes, List.length_cons, List.length_nil,
                List.length_dropLast] at heq ⊢
              omega)
            have hmk : findMarker (acc ++ ch) = none := by
              unfold findMarker
              rw [if_neg (by
                intro h1
                have := hasSub_of_prefix ⟨w, hw⟩ h1
                rw [this] at hsok
                cases hsok)]
              rw [if_neg (by
                intro h1
                have h2 := hasSub_of_prefix ⟨w ++ [75], by
                  rw [← List.append_assoc, hw, ← hsplit]⟩ h1
                rw [h2] at hsfail
                cases hsfail)]
              rw [if_neg (by
                intro h1
                have h2 := hasSub_of_prefix ⟨w ++ [75], by
                  rw [← List.append_assoc, hw, ← hsplit]⟩ h1
                rw [h2] at hlink
                cases hlink)]
            rw [hmk]
            exact ih (acc ++ ch) hacc2 hrfl
    exact go script pre hflat hne
  · intro script data hpf _ herr hlink
    exact waitPromptNR_found herr hlink script [] (by simpa using hpf) (by simp)
  · intro script data hsf hsok hsfail hlink
    exact waitSendOkNR_drops hsok hsfail hlink script [] (by simpa using hsf)
      (by rw [hsf]; simp [sendOkBytes])
  · intro pscript sscript pdata sdata rx d hpf _ herr hplink hsf hsok hsfail hslink
    have hp : waitPromptNR [] pscript = true :=
      waitPromptNR_found herr hplink pscript [] (by simpa using hpf) (by simp)
    have hw : waitSendOkNR [] sscript = (true, []) :=
      waitSendOkNR_drops hsok hsfail hslink sscript [] (by simpa using hsf)
        (by rw [hsf]; simp [sendOkBytes])
    unfold esp_send_data_fast
    rw [esp_send_data_fast_go]
    rw [hp, hw]
    simp [esp_send_data_fast_go]

/-- C4 (witness): the preservation results at concrete read scripts.
Updated client: the prompt wait hands back the bytes that arrived
before the `'>'`, and the completion wait hands back the pre-buffer
bytes collected during the burst writes once `SEND OK` arrives.
New_Realtime client: the same scripts make the prompt wait succeed
discarding its reads, the completion wait succeed with empty leftover,
and a successful fast send return exactly the burst-collected bytes. -/
theorem c4_witness :
    waitForPrompt [] [[72, 105], [33, 62]] = (true, [72, 105, 33]) ∧
      waitSendOk [104, 105] [[83, 69, 78, 68, 32, 79, 75]] = (true, [104, 105]) ∧
      waitPromptNR [] [[72, 105], [33, 62]] = true ∧
      waitSendOkNR [] [[104, 105], [83, 69, 78, 68, 32, 79, 75]] = (true, []) ∧
      esp_send_data_fast [88]
          [⟨[[72, 105], [33, 62]], [104, 105], [[83, 69, 78, 68, 32, 79, 75]]⟩] =
        (true, [104, 105]) :=
  ⟨c4_leftover_paths.1 [[72, 105], [33, 62]] [72, 105, 33]
      (by decide) (by decide) (by decide) (by decide) (by decide),
    c4_leftover_paths.2.1 [[83, 69, 78, 68, 32, 79, 75]] [104, 105] [104, 105]
      (by decide) (by decide) (by decide) (by decide) (by decide) (by decide)
      (by decide),
    c4_leftover_paths.2.2.1 [[72, 105], [33, 62]] [72, 105, 33]
      (by decide) (by decide) (by decide) (by decide),
    c4_leftover_paths.2.2.2.1 [[104, 105], [83, 69, 78, 68, 32, 79, 75]] [104, 105]
      (by decide) (by decide) (by decide) (by decide),
    c4_leftover_paths.2.2.2.2 [[72, 105], [33, 62]] [[83, 69, 78, 68, 32, 79, 75]]
      [72, 105, 33] [] [104, 105] 88
      (by decide) (by decide) (by decide) (by decide) (by decide) (by decide)
      (by decide) (by decide)⟩

end GlassesSTT
